import Mathlib

/-!
Shallow embedding of `srt_pipeline.py`, an SDH-subtitle cleaning pipeline.
Strings are modelled as `List Char`.  Python regular-expression operations
are modelled by executable scanners mirroring the engine's leftmost,
non-overlapping match semantics (including the backtracking behaviour of
`SPEAKER_RE`).  Character classes (`\s`, `\d`, `\w`, `str.isalpha`,
`str.upper`) are modelled on the Latin repertoire the program manipulates:
ASCII plus the accented letters named in its regexes.  Lines are assumed
to carry no embedded newline (the program reads them via `splitlines`).
-/

namespace SRT

abbrev Str := List Char

/-- Python `\s` and `str.strip()` whitespace, restricted to ASCII whitespace. -/
def isSpaceChar (c : Char) : Bool :=
  c = ' ' || c = '\t' || c = '\n' || c = '\r' || c = '\x0b' || c = '\x0c'

/-- Python `\d` on the ASCII digits. -/
def isDigitChar (c : Char) : Bool := '0' ≤ c && c ≤ '9'

def isAsciiUpper (c : Char) : Bool := 'A' ≤ c && c ≤ 'Z'

def isAsciiLower (c : Char) : Bool := 'a' ≤ c && c ≤ 'z'

/-- The accented uppercase letters named in `SPEAKER_RE` and `FORCED_RE`. -/
def accentedUpper : List Char := ['Á', 'É', 'Í', 'Ó', 'Ú', 'Ñ', 'Ü']

def accentedLower : List Char := ['á', 'é', 'í', 'ó', 'ú', 'ñ', 'ü']

/-- Python `str.isalpha`, restricted to the Latin letters the program uses. -/
def pyIsAlpha (c : Char) : Bool :=
  isAsciiUpper c || isAsciiLower c || accentedUpper.contains c || accentedLower.contains c

/-- Python `str.isupper` on one character. -/
def pyIsUpper (c : Char) : Bool := isAsciiUpper c || accentedUpper.contains c

/-- Python `str.upper` on one character (Latin repertoire). -/
def pyToUpper (c : Char) : Char :=
  if isAsciiLower c then Char.ofNat (c.toNat - 32)
  else if c = 'á' then 'Á' else if c = 'é' then 'É' else if c = 'í' then 'Í'
  else if c = 'ó' then 'Ó' else if c = 'ú' then 'Ú' else if c = 'ñ' then 'Ñ'
  else if c = 'ü' then 'Ü' else c

/-- Python `\w` (word character): letters, digits, underscore. -/
def isWordChar (c : Char) : Bool := pyIsAlpha c || isDigitChar c || c = '_'

/-- Python `str.strip()` (both ends). -/
def stripWs (s : Str) : Str :=
  ((s.dropWhile isSpaceChar).reverse.dropWhile isSpaceChar).reverse

/-- Python `str.rstrip("\n")`. -/
def rstripNl (s : Str) : Str := (s.reverse.dropWhile (fun c => c = '\n')).reverse

/-- Source `MUSIC_SYMBOLS`. -/
def MUSIC_SYMBOLS : List Char := ['♪', '♫', '♬', '♩', '♭', '♯']

/-- Source `_only_music`: the stripped line is nonempty and is all musical symbols. -/
def onlyMusic (line : Str) : Bool :=
  let stripped := stripWs line
  !stripped.isEmpty && stripped.all (fun c => MUSIC_SYMBOLS.contains c)

/-- Source `SDHConfig`: the six cleaning flags. -/
structure SDHConfig where
  remove_between_square : Bool
  remove_between_paren : Bool
  between_only_if_separate_line : Bool
  remove_text_before_colon : Bool
  colon_only_if_uppercase : Bool
  remove_if_only_music_symbols : Bool
deriving DecidableEq

/-- Preset "aggressive" (and "netflix"): the source's default flag values. -/
def aggressiveConfig : SDHConfig := ⟨true, true, false, true, true, true⟩

/-- Preset "conservative": the defaults with `between_only_if_separate_line` set. -/
def conservativeConfig : SDHConfig := ⟨true, true, true, true, true, true⟩

/-- Character class of `SPEAKER_RE`'s prefix group `[A-ZÁÉÍÓÚÜÑ0-9 '"&().-]`. -/
def speakerClassChar (c : Char) : Bool :=
  isAsciiUpper c || accentedUpper.contains c || isDigitChar c ||
  c = ' ' || c = '\'' || c = '"' || c = '&' || c = '(' || c = ')' || c = '.' || c = '-'

/-- One attempt of `SPEAKER_RE` with the leading `\s*` already consumed: the
greedy class run (the class excludes `:`), then `:`, then `\s*(.+)$` with
the engine's backtracking — the capture after the colon is nonempty, and its
leading whitespace is skipped except that the final character is kept when
everything after the colon is whitespace. -/
def speakerAttempt (s : Str) : Option (Str × Str) :=
  let p := s.takeWhile speakerClassChar
  match s.drop p.length with
  | ':' :: s2 =>
    if 2 ≤ p.length && !s2.isEmpty then
      let rest := s2.dropWhile isSpaceChar
      some (p, if rest.isEmpty then s2.drop (s2.length - 1) else rest)
    else none
  | _ => none

/-- Backtracking search for the leading `\s*` of `SPEAKER_RE`: the engine
tries the maximal whitespace run first, then gives back one character at a
time; `i` is the number of characters currently consumed by `\s*`. -/
def speakerSearch (line : Str) : Nat → Option (Str × Str)
  | 0 => speakerAttempt line
  | i + 1 =>
    match speakerAttempt (line.drop (i + 1)) with
    | some r => some r
    | none => speakerSearch line i

/-- Source `SPEAKER_RE.match`: the speaker prefix and the text after the colon. -/
def speakerMatch (line : Str) : Option (Str × Str) :=
  speakerSearch line (line.takeWhile isSpaceChar).length

/-- Source `_strip_speaker`. -/
def stripSpeaker (line : Str) (cfg : SDHConfig) : Str :=
  if !cfg.remove_text_before_colon then line
  else
    match speakerMatch line with
    | none => line
    | some (speaker, rest) =>
      if cfg.colon_only_if_uppercase ∧ speaker ≠ speaker.map pyToUpper then line
      else rest

/-- Source `re.sub(r"\[[^\]]*\]", "", line)` and its `()` and `\{\}` analogues:
delete every span from an opening character through the first closing
character after it; an opener with no later closer is kept literally (no
match can start at it or at any later opener).  The `fuel` argument makes
the recursion structural; every step consumes at least one character, so
`fuel = length` is always enough (see the fuel-irrelevance lemmas below). -/
def removeDelimF (openC closeC : Char) : Nat → Str → Str
  | _, [] => []
  | 0, s => s
  | fuel + 1, c :: rest =>
    if c = openC then
      let body := rest.takeWhile (fun d => d ≠ closeC)
      if body.length < rest.length then
        removeDelimF openC closeC fuel (rest.drop (body.length + 1))
      else c :: removeDelimF openC closeC fuel rest
    else c :: removeDelimF openC closeC fuel rest

def removeDelimited (openC closeC : Char) (s : Str) : Str :=
  removeDelimF openC closeC s.length s

/-- Source `_remove_inline_brackets`. -/
def removeInlineBrackets (line : Str) (cfg : SDHConfig) : Str :=
  let line1 :=
    if cfg.remove_between_square && !cfg.between_only_if_separate_line then
      removeDelimited '[' ']' line
    else line
  if cfg.remove_between_paren && !cfg.between_only_if_separate_line then
    removeDelimited '(' ')' line1
  else line1

/-- Full match of `\[[^\]]*\]` (resp. the `()` analogue): the opener, a run
without the closer, then the closer and nothing else. -/
def isDelimitedBlock (openC closeC : Char) (s : Str) : Bool :=
  match s with
  | [] => false
  | c :: rest =>
    c = openC && !rest.isEmpty && rest.dropLast.all (fun d => d ≠ closeC) &&
      rest.getLast? = some closeC

/-- Source `_should_drop_line_for_brackets`. -/
def shouldDropLineForBrackets (line : Str) (cfg : SDHConfig) : Bool :=
  if !cfg.between_only_if_separate_line then false
  else
    let stripped := stripWs line
    (cfg.remove_between_square && isDelimitedBlock '[' ']' stripped) ||
      (cfg.remove_between_paren && isDelimitedBlock '(' ')' stripped)

/-- Source `re.sub(r"\s+", " ", line)`: collapse whitespace runs to single
spaces (fuelled; each step consumes at least one character). -/
def collapseWsF : Nat → Str → Str
  | _, [] => []
  | 0, s => s
  | fuel + 1, c :: rest =>
    if isSpaceChar c then ' ' :: collapseWsF fuel (rest.dropWhile isSpaceChar)
    else c :: collapseWsF fuel rest

def collapseWs (s : Str) : Str := collapseWsF s.length s

/-- Decimal digits of a natural number, as Python `str(i)` renders it
(fuelled; `n / 10 < n` for `10 ≤ n`, so `fuel = n + 1` is always enough). -/
def natDigitsF : Nat → Nat → Str
  | 0, n => [Char.ofNat (48 + n % 10)]
  | fuel + 1, n =>
    if n < 10 then [Char.ofNat (48 + n)]
    else natDigitsF fuel (n / 10) ++ [Char.ofNat (48 + n % 10)]

def natDigits (n : Nat) : Str := natDigitsF n n

/-- Source placeholder token `f"__TAG_{i}__"`. -/
def tagToken (i : Nat) : Str :=
  '_' :: '_' :: 'T' :: 'A' :: 'G' :: '_' :: (natDigits i ++ ['_', '_'])

/-- After the literal `<br`: the `\s*`, an optional `/`, then `>`; returns
the number of characters consumed (at least one). -/
def brCloseLen : Str → Option Nat
  | [] => none
  | c :: rest =>
    if isSpaceChar c then (brCloseLen rest).map (fun n => n + 1)
    else if c = '/' then
      match rest with
      | '>' :: _ => some 2
      | _ => none
    else if c = '>' then some 1
    else none

/-- Length of a `BR_TAG_RE` (`<br\s*/?>`, case-insensitive) match at the head. -/
def matchBrLen : Str → Option Nat
  | '<' :: b :: r :: rest =>
    if (b = 'b' || b = 'B') && (r = 'r' || r = 'R') then
      (brCloseLen rest).map (fun n => n + 3)
    else none
  | _ => none

/-- Length of an `HTML_TAG_RE` (`<[^>]+>`) match at the head. -/
def matchHtmlLen : Str → Option Nat
  | '<' :: rest =>
    let body := rest.takeWhile (fun c => c ≠ '>')
    if !body.isEmpty && body.length < rest.length then some (body.length + 2)
    else none
  | _ => none

/-- Length of an `ASS_OVERRIDE_RE` (`\{[^}]*\}`) match at the head. -/
def matchBraceLen : Str → Option Nat
  | '{' :: rest =>
    let body := rest.takeWhile (fun c => c ≠ '}')
    if body.length < rest.length then some (body.length + 2)
    else none
  | _ => none

/-- Length of an `ASS_NEWLINE_RE` (`\\[Nn]`) match at the head. -/
def matchNlLen : Str → Option Nat
  | '\\' :: c :: _ => if c = 'N' || c = 'n' then some 2 else none
  | _ => none

/-- One `re.sub` shielding pass: replace every leftmost non-overlapping
match by the placeholder `__TAG_i__`, where `i` counts all placeholders
stored so far (across passes), and record the matched text in order
(fuelled; every match of the four tag patterns consumes at least one
character, so `fuel = length` is always enough). -/
def shieldGoF (ml : Str → Option Nat) : Nat → Str → List Str → Str × List Str
  | _, [], acc => ([], acc)
  | 0, s, acc => (s, acc)
  | fuel + 1, c :: rest, acc =>
    match ml (c :: rest) with
    | some n =>
      let out := shieldGoF ml fuel ((c :: rest).drop n) (acc ++ [(c :: rest).take n])
      (tagToken acc.length ++ out.1, out.2)
    | none =>
      let out := shieldGoF ml fuel rest acc
      (c :: out.1, out.2)

def shieldGo (ml : Str → Option Nat) (s : Str) (acc : List Str) : Str × List Str :=
  shieldGoF ml s.length s acc

/-- Does `pat` start `s`?  If so, return the remainder of `s` after it. -/
def stripPrefixQ : Str → Str → Option Str
  | [], s => some s
  | _ :: _, [] => none
  | p :: ps, c :: cs => if p = c then stripPrefixQ ps cs else none

/-- Python `str.replace` for a nonempty pattern: replace each leftmost,
non-overlapping occurrence, scanning left to right (fuelled; each step
consumes at least one character of the source). -/
def replaceAllF (pat rep : Str) : Nat → Str → Str
  | _, [] => []
  | 0, s => s
  | fuel + 1, c :: rest =>
    match stripPrefixQ pat (c :: rest) with
    | some rem => rep ++ replaceAllF pat rep fuel rem
    | none => c :: replaceAllF pat rep fuel rest

/-- Python `str.replace`; the program only ever replaces the nonempty
placeholder tokens `__TAG_i__`, so the empty-pattern case is unreachable. -/
def replaceAll (s pat rep : Str) : Str :=
  if pat.isEmpty then s else replaceAllF pat rep s.length s

/-- Source restore loop:
`for idx, original in enumerate(placeholders): line = line.replace(f"__TAG_{idx}__", original)`. -/
def restoreTags (line : Str) (placeholders : List Str) : Str :=
  placeholders.enum.foldl (fun l p => replaceAll l (tagToken p.1) p.2) line

/-- Source `clean_line`: standalone-bracket drop on the raw line, the four
shielding passes, inline bracket removal, speaker strip, whitespace
normalization, music-only drop, then placeholder restoration. -/
def clean_line (line : Str) (cfg : SDHConfig) : Option Str :=
  if shouldDropLineForBrackets line cfg then none
  else
    let p1 := shieldGo matchBrLen line []
    let p2 := shieldGo matchHtmlLen p1.1 p1.2
    let p3 := shieldGo matchBraceLen p2.1 p2.2
    let p4 := shieldGo matchNlLen p3.1 p3.2
    let s5 := removeInlineBrackets p4.1 cfg
    let s6 := stripSpeaker s5 cfg
    let s7 := stripWs (collapseWs s6)
    if cfg.remove_if_only_music_symbols && onlyMusic s7 then none
    else some (restoreTags s7 p4.2)

/-- Source `sdh_to_full_lines`: clean each line, keep truthy results. -/
def sdh_to_full_lines (lines : List Str) (cfg : SDHConfig) : List Str :=
  match lines with
  | [] => []
  | l :: rest =>
    match clean_line (rstripNl l) cfg with
    | some r => if r.isEmpty then sdh_to_full_lines rest cfg else r :: sdh_to_full_lines rest cfg
    | none => sdh_to_full_lines rest cfg

/-- Character class of `FORCED_RE`'s first branch `[A-ZÁÉÍÓÚÑÜ\s\d\W]`. -/
def forcedClassChar (c : Char) : Bool :=
  isAsciiUpper c || accentedUpper.contains c || isSpaceChar c || isDigitChar c || !isWordChar c

/-- The literal override `{\an8}` (written out character by character). -/
def an8Token : Str := ['{', '\\', 'a', 'n', '8', '}']

/-- Source `FORCED_RE.fullmatch` (`^[A-ZÁÉÍÓÚÑÜ\s\d\W]+$|^\{\\an8\}`): either
every character is in the all-caps class (nonempty), or — since `fullmatch`
must consume the whole string — the string is exactly `{\an8}`. -/
def forcedFullmatch (s : Str) : Bool :=
  (!s.isEmpty && s.all forcedClassChar) || s == an8Token

/-- Source `is_all_caps_cue`: strip, match `FORCED_RE`, then require at least
two alphabetic characters, all uppercase. -/
def is_all_caps_cue (line : Str) : Bool :=
  let text := stripWs line
  if text.isEmpty then false
  else if !forcedFullmatch text then false
  else
    let letters := text.filter pyIsAlpha
    if letters.length < 2 then false
    else letters.all pyIsUpper

/-- Source `SRTBlock`. -/
structure SRTBlock where
  index : Str
  timing : Str
  texts : List Str
deriving DecidableEq

/-- Source `_make_block`: a buffer of fewer than two lines becomes a
degenerate block with empty index and timing. -/
def makeBlock : List Str → SRTBlock
  | l0 :: l1 :: rest => ⟨l0, l1, rest⟩
  | ls => ⟨[], [], ls⟩

/-- Source `parse_srt` loop with its line buffer. -/
def parseGo : List Str → List Str → List SRTBlock
  | [], buffer => if buffer.isEmpty then [] else [makeBlock buffer]
  | l :: rest, buffer =>
    if (stripWs l).isEmpty then
      if buffer.isEmpty then parseGo rest [] else makeBlock buffer :: parseGo rest []
    else parseGo rest (buffer ++ [rstripNl l])

/-- Source `parse_srt`. -/
def parse_srt (lines : List Str) : List SRTBlock := parseGo lines []

/-- Source `format_srt` loop with its counter; `str(counter if renumber else
block.index or counter)` falls back to the counter when the index is empty. -/
def formatGo (renumber : Bool) : Nat → List SRTBlock → List Str
  | _, [] => []
  | counter, b :: rest =>
    if b.texts.isEmpty then formatGo renumber counter rest
    else
      (if renumber then natDigits counter
       else if b.index.isEmpty then natDigits counter else b.index) ::
        b.timing :: (b.texts ++ [] :: formatGo renumber (counter + 1) rest)

/-- Source `format_srt`. -/
def format_srt (blocks : List SRTBlock) (renumber : Bool) : List Str :=
  formatGo renumber 1 blocks

/-- Source `sdh_to_full_blocks` inner loop over one block's texts. -/
def cleanTexts (texts : List Str) (cfg : SDHConfig) : List Str :=
  match texts with
  | [] => []
  | t :: rest =>
    match clean_line t cfg with
    | some r => if r.isEmpty then cleanTexts rest cfg else r :: cleanTexts rest cfg
    | none => cleanTexts rest cfg

/-- Source `sdh_to_full_blocks`: clean every text line, drop falsy results,
drop blocks left with no text. -/
def sdh_to_full_blocks (blocks : List SRTBlock) (cfg : SDHConfig) : List SRTBlock :=
  match blocks with
  | [] => []
  | b :: rest =>
    let newTexts := cleanTexts b.texts cfg
    if newTexts.isEmpty then sdh_to_full_blocks rest cfg
    else ⟨b.index, b.timing, newTexts⟩ :: sdh_to_full_blocks rest cfg

/-- Source `_text_without_overrides`: `ASS_OVERRIDE_RE.sub("", text)`. -/
def textWithoutOverrides (text : Str) : Str := removeDelimited '{' '}' text

/-- Source `full_to_forced_blocks` with an explicit cue checker. -/
def fullToForcedBlocksWith (checker : Str → Bool) (blocks : List SRTBlock) : List SRTBlock :=
  blocks.filter (fun b =>
    !b.texts.isEmpty && b.texts.all (fun t => checker (textWithoutOverrides t)))

/-- Source `full_to_forced_blocks` with its default checker `is_all_caps_cue`. -/
def full_to_forced_blocks (blocks : List SRTBlock) : List SRTBlock :=
  fullToForcedBlocksWith is_all_caps_cue blocks

/-- Convenience: the character list of a string literal. -/
def litStr (s : String) : Str := s.data

/-- The characters that can start a shielded span: `<` (markup tags), `{`
(override codes), `\` (escaped newlines). -/
def isTagTrigger (c : Char) : Bool := c = '<' || c = '{' || c = '\\'

/-- Normal form of whitespace collapsing: every whitespace character is a
single space that is not followed by further whitespace. -/
def isCollapsed : Str → Bool
  | [] => true
  | c :: rest =>
    (if isSpaceChar c then
      decide (c = ' ') && (match rest with | [] => true | d :: _ => !isSpaceChar d)
     else true) && isCollapsed rest

/-- Modelled from the spec wording of the speaker rule, for comparison with
`SPEAKER_RE`: "an allowed name-character set (letters — including accented
Latin letters — digits, spaces, quotes, ampersand, parentheses, hyphen)". -/
def specAllowedNameChar (c : Char) : Bool :=
  pyIsAlpha c || isDigitChar c || c = ' ' || c = '\'' || c = '"' || c = '&' ||
    c = '(' || c = ')' || c = '-'

/-- Modelled from the claim wording: the line starts with a prefix of at
least 2 characters drawn from the allowed name-character set, followed by a
colon and at least one more character.  (The set excludes the colon, so the
prefix is exactly the run of allowed characters before the first colon.) -/
def claimSpeakerApplies (line : Str) : Bool :=
  let p := line.takeWhile specAllowedNameChar
  match line.drop p.length with
  | ':' :: s => 2 ≤ p.length && !s.isEmpty
  | _ => false

/-- One emitted segment of the formatter, for the formatter-shape theorems:
index line (the counter when renumbering, otherwise the original index with
the counter as fallback), the timing line, the text lines, one blank
separator line. -/
def formatSegment (renumber : Bool) (i : Nat) (b : SRTBlock) : List Str :=
  (if renumber then natDigits i else if b.index.isEmpty then natDigits i else b.index) ::
    b.timing :: (b.texts ++ [[]])

/-- Truthiness filter used by the SDH→Full orchestration: a cleaned line is
kept exactly when `clean_line` returned a nonempty string. -/
def cleanKeep (cfg : SDHConfig) (t : Str) : Option Str :=
  (clean_line t cfg).bind (fun r => if r.isEmpty then none else some r)

/-- Modelled from the amended speaker-rule statement: the closed form of the
observable result of `SPEAKER_RE.match`.  Skip the maximal whitespace run
`w`; take the maximal run `p` of name-class characters; the rule applies
when `p` is immediately followed by a colon, at least one character follows
the colon, and `p` together with the borrowable trailing spaces of `w` (the
engine backtracks `\s*`, and only the space character is in the name class)
reaches the 2-character minimum; the line is then replaced by the text
after the colon with its leading whitespace dropped, except that the final
character is kept when everything after the colon is whitespace. -/
def specSpeakerAux (b : Nat) (r : Str) : Option Str :=
  let p := r.takeWhile speakerClassChar
  match r.drop p.length with
  | ':' :: s2 =>
    if 2 ≤ b + p.length && !s2.isEmpty then
      let d := s2.dropWhile isSpaceChar
      some (if d.isEmpty then s2.drop (s2.length - 1) else d)
    else none
  | _ => none

def specSpeakerRest (line : Str) : Option Str :=
  let w := line.takeWhile isSpaceChar
  specSpeakerAux (w.reverse.takeWhile (fun c => c = ' ')).length (line.drop w.length)

/-- Characters allowed in the plain text surrounding a shielded override
span in the restricted round-trip statement: no markup/override/escape
trigger, no inline-bracket character, and no underscore (underscores could
collide with the placeholder sentinels, see the counterexample). -/
def plainGapChar (c : Char) : Bool :=
  !(c = '<' || c = '{' || c = '}' || c = '\\' || c = '_' ||
    c = '[' || c = ']' || c = '(' || c = ')')

/-- Characters allowed inside a brace override span in the restricted
round-trip statement: anything except the closing brace (the regex class
`[^}]*`), an angle bracket (would interact with the earlier markup passes)
or an underscore (sentinel collision). -/
def goodInnerChar (c : Char) : Bool := !(c = '}' || c = '<' || c = '_')

/-- The brace override span with the given interior. -/
def mkSpan (inner : Str) : Str := '{' :: (inner ++ ['}'])

/-- A line assembled from alternating plain gaps and brace override spans
(given by their interiors), ending with a final plain gap. -/
def interleaveSpans : List (Str × Str) → Str → Str
  | [], gN => gN
  | p :: rest, gN => p.1 ++ mkSpan p.2 ++ interleaveSpans rest gN

/-- Alternating gap/segment pairs followed by a tail. -/
def interleaveF : List (Str × Str) → Str → Str
  | [], t => t
  | p :: rest, t => p.1 ++ p.2 ++ interleaveF rest t

/-- The shielded form of an interleaved line: each span replaced by the
placeholder token with consecutive indices starting at `b`. -/
def tokensBetween : Nat → List Str → Str → Str
  | _, [], gN => gN
  | b, g :: rest, gN => g ++ tagToken b ++ tokensBetween (b + 1) rest gN

/-- The middle part of a shielded line: from the first placeholder to the
last, with the intervening gaps. -/
def midPart : Nat → List Str → Str
  | b, [] => tagToken b
  | b, g :: rest => tagToken b ++ g ++ midPart (b + 1) rest

/-- Decimal read-back of a digit string (left inverse of `natDigits`). -/
def digitsToNat (s : Str) : Nat := s.foldl (fun a c => a * 10 + (c.toNat - 48)) 0

/-- What may safely follow a placeholder token without letting an earlier
placeholder pattern match across the token boundary. -/
def SafeTail (R : Str) : Prop :=
  R.head? ≠ some 'T' ∧ ∀ R2, R = '_' :: R2 → R2.head? ≠ some 'T'

/-- Strip trailing whitespace only. -/
def rstripEnd (s : Str) : Str := (s.reverse.dropWhile isSpaceChar).reverse

theorem formatGo_eq_segments (renumber : Bool) (i : Nat) (blocks : List SRTBlock) :
    formatGo renumber i blocks =
      ((blocks.filter (fun b => !b.texts.isEmpty)).enumFrom i).flatMap
        (fun p => formatSegment renumber p.1 p.2) := by
  induction blocks generalizing i with
  | nil => simp [formatGo]
  | cons b rest ih =>
    by_cases h : b.texts.isEmpty
    · simp [formatGo, h, ih]
    · simp [formatGo, h, ih, formatSegment, List.enumFrom]

/-- Claim C2, counterexample: the line `<i>HELLO THERE</i>` is NOT classified
as a forced cue (the lowercase letters of the markup tags fail both branches
of `FORCED_RE` and the all-uppercase letters requirement), so the entry is
dropped, not retained, by the Full→Forced step. -/
theorem C2_counterexample :
    ¬ (is_all_caps_cue (litStr "<i>HELLO THERE</i>") = true ∧
       full_to_forced_blocks
         [⟨litStr "1", litStr "00:00:01,000 --> 00:00:02,000", [litStr "<i>HELLO THERE</i>"]⟩] =
         [⟨litStr "1", litStr "00:00:01,000 --> 00:00:02,000", [litStr "<i>HELLO THERE</i>"]⟩]) := by
  decide

/-- Claim C2, amended: `is_all_caps_cue` does not strip or shield angle-bracket
markup, so the lowercase `i` of `<i>`/`</i>` makes the line fail both the
`FORCED_RE` class and the all-uppercase letters check; the line is not
classified Forced and an entry consisting of it is dropped by Full→Forced. -/
theorem C2_not_forced :
    is_all_caps_cue (litStr "<i>HELLO THERE</i>") = false ∧
    full_to_forced_blocks
      [⟨litStr "1", litStr "00:00:01,000 --> 00:00:02,000", [litStr "<i>HELLO THERE</i>"]⟩] = [] := by
  decide

/-- Claim C4 (code bug): `FORCED_RE` has a dedicated branch matching the
override `{\an8}` standing alone (its comment says the regex detects
all-caps cues "o override {\an8}"), yet `is_all_caps_cue` then demands at
least two alphabetic characters all uppercase, which the lowercase `a`, `n`
of `{\an8}` can never satisfy — the branch is dead code and the line is not
classified Forced; moreover the Full→Forced step strips the override before
checking, leaving the empty string, so such an entry is dropped. -/
theorem C4_dead_branch :
    forcedFullmatch an8Token = true ∧
    is_all_caps_cue an8Token = false ∧
    textWithoutOverrides an8Token = [] ∧
    full_to_forced_blocks [⟨litStr "1", litStr "t", [an8Token, an8Token]⟩] = [] := by
  decide

/-- Claim C5, counterexample: the claim's name-character set says "letters"
(which includes lowercase) and omits the period, but `SPEAKER_RE`'s class is
uppercase-only and includes the period.  For `"ab: x"` (with
`remove_text_before_colon` set and `colon_only_if_uppercase` clear) the
claim demands the replacement by the text after the colon, yet the code
leaves the line unchanged; for `"A.B: x"` the claim demands the line be left
unchanged, yet the code strips the prefix. -/
theorem C5_counterexample :
    (claimSpeakerApplies (litStr "ab: x") = true ∧
      stripSpeaker (litStr "ab: x") ⟨true, true, false, true, false, true⟩ = litStr "ab: x") ∧
    (claimSpeakerApplies (litStr "A.B: x") = false ∧
      stripSpeaker (litStr "A.B: x") aggressiveConfig = litStr "x") := by
  decide

/-- Claim C6, counterexample: the formatter appends a blank separator line
after EVERY emitted entry, including the final one, so the claim's "no
trailing separator after the final emitted entry" is false. -/
theorem C6_counterexample :
    format_srt [⟨litStr "1", litStr "t", [litStr "x"]⟩] true =
      [litStr "1", litStr "t", litStr "x", []] ∧
    (format_srt [⟨litStr "1", litStr "t", [litStr "x"]⟩] true).getLast? = some [] := by
  decide

/-- Claim C6, amended: for every list of entries, `format_srt` emits, for
each entry with at least one text line, an index line, the timing line
unchanged, each text line unchanged, then one blank separator line — also
after the final emitted entry; the caller's join then adds the single
trailing terminator, so output files end with one blank line. -/
theorem C6_segments :
    ∀ (blocks : List SRTBlock) (renumber : Bool),
      format_srt blocks renumber =
        ((blocks.filter (fun b => !b.texts.isEmpty)).enumFrom 1).flatMap
          (fun p => formatSegment renumber p.1 p.2) := by
  intro blocks renumber
  exact formatGo_eq_segments renumber 1 blocks

/-- Claim C7: `format_srt` never emits an entry with zero text lines (such
entries are filtered out), and with `renumber = true` the emitted index
lines are the decimal numerals `1, 2, 3, …` in order, one per emitted
entry, with no gaps. -/
theorem C7_format_invariant :
    ∀ blocks : List SRTBlock,
      format_srt blocks true =
        ((blocks.filter (fun b => !b.texts.isEmpty)).enumFrom 1).flatMap
          (fun p => natDigits p.1 :: p.2.timing :: (p.2.texts ++ [[]])) := by
  intro blocks
  have h := formatGo_eq_segments true 1 blocks
  simpa [formatSegment] using h

/-- Claim C8 (Scenario E): under any configuration with
`between_only_if_separate_line` and `remove_between_square` set (the other
four flags arbitrary), the line `[wind howling]` is dropped by the
whole-line bracket rule, the entry is dropped by SDH→Full, and nothing of
it reaches the formatted output. -/
theorem C8_scenarioE :
    ∀ a b c d : Bool,
      clean_line (litStr "[wind howling]") ⟨true, a, true, b, c, d⟩ = none ∧
      sdh_to_full_blocks
        [⟨litStr "1", litStr "00:00:01,000 --> 00:00:02,000", [litStr "[wind howling]"]⟩]
        ⟨true, a, true, b, c, d⟩ = [] ∧
      format_srt
        (sdh_to_full_blocks
          [⟨litStr "1", litStr "00:00:01,000 --> 00:00:02,000", [litStr "[wind howling]"]⟩]
          ⟨true, a, true, b, c, d⟩) true = [] := by
  decide

/-- Claim C3, counterexample: SDH→Full is not idempotent.  With the
"conservative" configuration, `"AB: [noise]"` first loses its speaker
prefix, and only the second pass sees the whole-line bracket block and
drops the entry; with the default configuration, `"AB: CD: hi"` loses one
stacked speaker prefix per pass. -/
theorem C3_counterexample :
    (sdh_to_full_blocks
        (sdh_to_full_blocks [⟨litStr "1", litStr "t", [litStr "AB: [noise]"]⟩] conservativeConfig)
        conservativeConfig ≠
      sdh_to_full_blocks [⟨litStr "1", litStr "t", [litStr "AB: [noise]"]⟩] conservativeConfig) ∧
    (sdh_to_full_blocks
        (sdh_to_full_blocks [⟨litStr "1", litStr "t", [litStr "AB: CD: hi"]⟩] aggressiveConfig)
        aggressiveConfig ≠
      sdh_to_full_blocks [⟨litStr "1", litStr "t", [litStr "AB: CD: hi"]⟩] aggressiveConfig) := by
  decide

/-- Claim C1, counterexample: the shield round-trip guarantee fails in three
ways.  (1) With the default configuration, the shielded span `<i>` of
`"x (<i>) y"` sits inside a parenthetical, the inline bracket rule deletes
the placeholder, and the returned line `"x y"` no longer contains the span.
(2) User text shaped like a placeholder collides with the sentinels: in
`"__TAG_0__ <i>"` (all rules off) the user text `__TAG_0__` is rewritten to
`<i>`.  (3) A `<br>` span nested in a larger tag is captured into another
placeholder's stored text, and the restored line leaks the internal
sentinel `__TAG_0__` instead of the span. -/
theorem C1_counterexample :
    (clean_line (litStr "x (<i>) y") aggressiveConfig = some (litStr "x y") ∧
      ¬ litStr "<i>" <:+: litStr "x y") ∧
    (clean_line (litStr "__TAG_0__ <i>") ⟨false, false, false, false, false, false⟩ =
      some (litStr "<i> <i>")) ∧
    (clean_line (litStr "<a <br> b>") ⟨false, false, false, false, false, false⟩ =
        some (litStr "<a __TAG_0__ b>") ∧
      ¬ litStr "<br>" <:+: litStr "<a __TAG_0__ b>") := by
  decide

theorem cleanTexts_eq_filterMap (texts : List Str) (cfg : SDHConfig) :
    cleanTexts texts cfg = texts.filterMap (cleanKeep cfg) := by
  induction texts with
  | nil => simp [cleanTexts]
  | cons t rest ih =>
    simp only [cleanTexts, List.filterMap_cons]
    cases h : clean_line t cfg with
    | none => simp [cleanKeep, h, ih]
    | some r =>
      by_cases hr : r = []
      · simp [cleanKeep, h, hr, ih, List.isEmpty_eq_true]
      · simp [cleanKeep, h, hr, ih, List.isEmpty_eq_true]

theorem sdh_lines_eq_filterMap (lines : List Str) (cfg : SDHConfig) :
    sdh_to_full_lines lines cfg = lines.filterMap (fun l => cleanKeep cfg (rstripNl l)) := by
  induction lines with
  | nil => simp [sdh_to_full_lines]
  | cons l rest ih =>
    simp only [sdh_to_full_lines, List.filterMap_cons]
    cases h : clean_line (rstripNl l) cfg with
    | none => simp [cleanKeep, h, ih]
    | some r =>
      by_cases hr : r = []
      · simp [cleanKeep, h, hr, ih, List.isEmpty_eq_true]
      · simp [cleanKeep, h, hr, ih, List.isEmpty_eq_true]

theorem sdh_blocks_eq_filterMap (blocks : List SRTBlock) (cfg : SDHConfig) :
    sdh_to_full_blocks blocks cfg = blocks.filterMap (fun b =>
      let ts := b.texts.filterMap (cleanKeep cfg)
      if ts.isEmpty then none else some ⟨b.index, b.timing, ts⟩) := by
  induction blocks with
  | nil => simp [sdh_to_full_blocks]
  | cons b rest ih =>
    simp only [sdh_to_full_blocks, List.filterMap_cons]
    rw [cleanTexts_eq_filterMap]
    by_cases h : (b.texts.filterMap (cleanKeep cfg)).isEmpty
    · simp [h, ih]
    · simp [h, ih]

/-- Claim C9: a line whose cleaned result is the empty string is excluded
exactly as a dropped (`None`) line is — both orchestration layers keep a
cleaned line only when it is nonempty — and `clean_line` really does return
the empty string (not `None`) for some lines, e.g. `"[x]"` under the
default configuration. -/
theorem C9_empty_drop :
    (∀ (lines : List Str) (cfg : SDHConfig),
        sdh_to_full_lines lines cfg =
          lines.filterMap (fun l =>
            (clean_line (rstripNl l) cfg).bind (fun r => if r.isEmpty then none else some r))) ∧
    (∀ (blocks : List SRTBlock) (cfg : SDHConfig),
        sdh_to_full_blocks blocks cfg = blocks.filterMap (fun b =>
          let ts := b.texts.filterMap (fun t =>
            (clean_line t cfg).bind (fun r => if r.isEmpty then none else some r))
          if ts.isEmpty then none else some ⟨b.index, b.timing, ts⟩)) ∧
    clean_line (litStr "[x]") aggressiveConfig = some [] := by
  refine ⟨fun lines cfg => ?_, fun blocks cfg => ?_, by decide⟩
  · rw [sdh_lines_eq_filterMap]
    rfl
  · rw [sdh_blocks_eq_filterMap]
    rfl

theorem parseGo_all_blank (lines buffer : List Str)
    (h : ∀ l ∈ lines, (stripWs l).isEmpty = true) :
    parseGo lines buffer = if buffer.isEmpty then [] else [makeBlock buffer] := by
  induction lines generalizing buffer with
  | nil => simp [parseGo]
  | cons l rest ih =>
    have hl := h l (by simp)
    have hrest : ∀ x ∈ rest, (stripWs x).isEmpty = true := fun x hx => h x (by simp [hx])
    by_cases hb : buffer.isEmpty
    · simp [parseGo, hl, hb, ih _ hrest]
    · simp [parseGo, hl, hb, ih _ hrest]

theorem parseGo_blank_cons (bl : Str) (xs : List Str) (h : (stripWs bl).isEmpty = true) :
    parseGo (bl :: xs) [] = parseGo xs [] := by
  simp [parseGo, h]

theorem parseGo_double_blank (lines1 lines2 : List Str) (bl : Str)
    (h : (stripWs bl).isEmpty = true) (buffer : List Str) :
    parseGo (lines1 ++ bl :: bl :: lines2) buffer = parseGo (lines1 ++ bl :: lines2) buffer := by
  induction lines1 generalizing buffer with
  | nil =>
    by_cases hb : buffer.isEmpty
    · simp [parseGo, h, hb, parseGo_blank_cons bl lines2 h]
    · simp [parseGo, h, hb, parseGo_blank_cons bl lines2 h]
  | cons l rest ih =>
    by_cases hl : (stripWs l).isEmpty
    · by_cases hb : buffer.isEmpty
      · simp [parseGo, hl, hb, ih]
      · simp [parseGo, hl, hb, ih]
    · simp [parseGo, hl, ih]

theorem rstripNl_ne_nil_of_not_blank (l : Str) (h : (stripWs l).isEmpty = false) :
    rstripNl l ≠ [] := by
  intro hc
  have hrev : l.reverse.dropWhile (fun c => c = '\n') = [] := by
    have h2 := congrArg List.reverse hc
    simpa [rstripNl] using h2
  have hall : ∀ c ∈ l, c = '\n' := by
    intro c hcmem
    have h2 := List.dropWhile_eq_nil_iff.mp hrev c (by simpa using hcmem)
    simpa using h2
  have h1 : l.dropWhile isSpaceChar = [] := by
    refine List.dropWhile_eq_nil_iff.mpr ?_
    intro x hx
    rw [hall x hx]
    decide
  have hstrip : stripWs l = [] := by simp [stripWs, h1]
  rw [hstrip] at h
  simp at h

theorem makeBlock_inv (buffer : List Str) (hne : buffer ≠ [])
    (hx : ∀ x ∈ buffer, x ≠ []) :
    (makeBlock buffer).texts ≠ [] ∨
      ((makeBlock buffer).index ≠ [] ∧ (makeBlock buffer).timing ≠ []) := by
  match buffer, hne with
  | [x], _ => simp [makeBlock]
  | x :: y :: rest, _ =>
    right
    exact ⟨hx x (by simp), hx y (by simp)⟩

theorem parseGo_mem_inv (lines buffer : List Str)
    (hbuf : ∀ x ∈ buffer, x ≠ []) (b : SRTBlock) (hb : b ∈ parseGo lines buffer) :
    b.texts ≠ [] ∨ (b.index ≠ [] ∧ b.timing ≠ []) := by
  induction lines generalizing buffer with
  | nil =>
    by_cases h : buffer.isEmpty
    · simp [parseGo, h] at hb
    · simp only [parseGo, h, if_neg] at hb
      simp only [Bool.not_eq_true] at h
      have := List.mem_singleton.mp (by simpa using hb)
      subst this
      exact makeBlock_inv buffer (by simpa [List.isEmpty_iff] using h) hbuf
  | cons l rest ih =>
    by_cases hl : (stripWs l).isEmpty
    · by_cases h : buffer.isEmpty
      · rw [parseGo] at hb
        simp only [hl, h, if_pos, if_true] at hb
        exact ih [] (by simp) hb
      · rw [parseGo] at hb
        simp only [hl, h, if_true, if_neg] at hb
        rcases (List.mem_cons).mp (by simpa using hb) with heq | hmem
        · subst heq
          exact makeBlock_inv buffer (by simpa [List.isEmpty_iff] using h) hbuf
        · exact ih [] (by simp) hmem
    · rw [parseGo] at hb
      simp only [hl] at hb
      refine ih (buffer ++ [rstripNl l]) ?_ (by simpa using hb)
      intro x hx
      rcases List.mem_append.mp hx with hx1 | hx2
      · exact hbuf x hx1
      · have : x = rstripNl l := by simpa using hx2
        subst this
        exact rstripNl_ne_nil_of_not_blank l (by simpa using hl)

/-- Claim C10: `parse_srt` produces no entry from blank lines — an all-blank
input yields no entries, and collapsing a doubled blank line changes
nothing — and every returned entry carries at least one input line in its
fields: nonempty text lines, or (for buffers of two or more lines) a
nonempty index and timing.  Totality on arbitrary line sequences is
witnessed by the embedding itself being a total function. -/
theorem C10_parse_invariants :
    (∀ lines : List Str, (∀ l ∈ lines, (stripWs l).isEmpty = true) → parse_srt lines = []) ∧
    (∀ (lines1 lines2 : List Str) (bl : Str), (stripWs bl).isEmpty = true →
        parse_srt (lines1 ++ bl :: bl :: lines2) = parse_srt (lines1 ++ bl :: lines2)) ∧
    (∀ (lines : List Str) (b : SRTBlock), b ∈ parse_srt lines →
        b.texts ≠ [] ∨ (b.index ≠ [] ∧ b.timing ≠ [])) := by
  refine ⟨fun lines h => ?_, fun lines1 lines2 bl h => ?_, fun lines b hb => ?_⟩
  · simpa [parse_srt] using parseGo_all_blank lines [] h
  · exact parseGo_double_blank lines1 lines2 bl h []
  · exact parseGo_mem_inv lines [] (by simp) b hb

/-- Witness for C10 at concrete inputs: a blank-only input parses to
nothing, a doubled blank separator is no different from a single one, and a
degenerate two-line entry satisfies the field invariant. -/
theorem C10_parse_invariants_witness :
    parse_srt [litStr " ", []] = [] ∧
    parse_srt ([litStr "a"] ++ [] :: [] :: [litStr "b"]) =
      parse_srt ([litStr "a"] ++ [] :: [litStr "b"]) ∧
    ((⟨litStr "1", litStr "t", []⟩ : SRTBlock).texts ≠ [] ∨
      ((⟨litStr "1", litStr "t", []⟩ : SRTBlock).index ≠ [] ∧
        (⟨litStr "1", litStr "t", []⟩ : SRTBlock).timing ≠ [])) :=
  ⟨C10_parse_invariants.1 [litStr " ", []] (by decide),
   C10_parse_invariants.2.1 [litStr "a"] [litStr "b"] [] (by decide),
   C10_parse_invariants.2.2 [litStr "1", litStr "t"] ⟨litStr "1", litStr "t", []⟩ (by decide)⟩

theorem pyToUpper_eq_self_of_toNat (c : Char) (h1 : ¬(97 ≤ c.toNat ∧ c.toNat ≤ 122))
    (h2 : c.toNat ∉ ([225, 233, 237, 243, 250, 241, 252] : List Nat)) : pyToUpper c = c := by
  have hl : isAsciiLower c = false := by
    by_contra hh
    simp only [Bool.not_eq_false, isAsciiLower, Bool.and_eq_true, decide_eq_true_eq] at hh
    exact h1 ⟨hh.1, hh.2⟩
  have e1 : c ≠ 'á' := fun he => h2 (by rw [he]; decide)
  have e2 : c ≠ 'é' := fun he => h2 (by rw [he]; decide)
  have e3 : c ≠ 'í' := fun he => h2 (by rw [he]; decide)
  have e4 : c ≠ 'ó' := fun he => h2 (by rw [he]; decide)
  have e5 : c ≠ 'ú' := fun he => h2 (by rw [he]; decide)
  have e6 : c ≠ 'ñ' := fun he => h2 (by rw [he]; decide)
  have e7 : c ≠ 'ü' := fun he => h2 (by rw [he]; decide)
  simp only [pyToUpper, hl, Bool.false_eq_true, if_false, if_neg e1, if_neg e2, if_neg e3,
    if_neg e4, if_neg e5, if_neg e6, if_neg e7]

theorem speakerClassChar_toUpper_fix (c : Char) (h : speakerClassChar c = true) :
    pyToUpper c = c := by
  simp only [speakerClassChar, isAsciiUpper, isDigitChar, accentedUpper, Bool.or_eq_true,
    Bool.and_eq_true, decide_eq_true_eq, List.elem_eq_mem, List.mem_cons,
    List.mem_singleton, Bool.decide_or, List.not_mem_nil, or_false] at h
  rcases h with ((((((((((⟨h1, h2⟩ | hacc) | ⟨h1, h2⟩) | he) | he) | he) | he) | he) | he) | he) | he)
  · have a1 : 65 ≤ c.toNat := h1
    have a2 : c.toNat ≤ 90 := h2
    refine pyToUpper_eq_self_of_toNat c (fun hh => by omega) (fun hm => ?_)
    simp only [List.mem_cons, List.not_mem_nil, or_false] at hm
    omega
  · rcases hacc with he | he | he | he | he | he | he
    all_goals subst he
    all_goals decide
  · have a1 : 48 ≤ c.toNat := h1
    have a2 : c.toNat ≤ 57 := h2
    refine pyToUpper_eq_self_of_toNat c (fun hh => by omega) (fun hm => ?_)
    simp only [List.mem_cons, List.not_mem_nil, or_false] at hm
    omega
  all_goals subst he
  all_goals decide

theorem map_pyToUpper_fix (sp : Str) (h : ∀ c ∈ sp, speakerClassChar c = true) :
    sp.map pyToUpper = sp := by
  induction sp with
  | nil => simp
  | cons c rest ih =>
    simp only [List.map_cons]
    rw [speakerClassChar_toUpper_fix c (h c (by simp)), ih (fun x hx => h x (by simp [hx]))]

theorem takeWhile_append_all (q : Char → Bool) (a b : Str) (h : ∀ x ∈ a, q x = true) :
    (a ++ b).takeWhile q = a ++ b.takeWhile q := by
  induction a with
  | nil => simp
  | cons x rest ih =>
    have hx := h x (by simp)
    simp only [List.cons_append, List.takeWhile_cons, hx, if_true]
    rw [ih (fun y hy => h y (by simp [hy]))]

theorem take_all_iff_le_takeWhile (q : Char → Bool) (l : List Char) (m : Nat)
    (hm : m ≤ l.length) :
    (∀ c ∈ l.take m, q c = true) ↔ m ≤ (l.takeWhile q).length := by
  induction l generalizing m with
  | nil =>
    simp only [List.length_nil, Nat.le_zero] at hm
    subst hm
    simp
  | cons c t ih =>
    cases m with
    | zero => simp
    | succ m2 =>
      have hm2 : m2 ≤ t.length := by simpa using hm
      have hih := ih m2 hm2
      simp only [List.take_succ_cons, List.takeWhile_cons, List.mem_cons]
      cases hq : q c with
      | true =>
        rw [if_pos rfl]
        simp only [List.length_cons]
        constructor
        · intro hall
          have h2 : m2 ≤ (t.takeWhile q).length :=
            hih.mp (fun x hx => hall x (Or.inr hx))
          omega
        · intro hle x hx
          rcases hx with hx | hx
          · rw [hx]; exact hq
          · exact hih.mpr (by omega) x hx
      | false =>
        rw [if_neg (by simp)]
        simp only [List.length_nil, Nat.le_zero]
        constructor
        · intro hall
          have := hall c (Or.inl rfl)
          rw [hq] at this
          cases this
        · intro hle
          cases hle

theorem drop_all_space_iff (w : Str) (j : Nat) (hj : j ≤ w.length) :
    (∀ c ∈ w.drop j, c = ' ') ↔
      w.length - j ≤ (w.reverse.takeWhile (fun c => c = ' ')).length := by
  have hrev : (w.drop j).reverse = w.reverse.take (w.length - j) := List.reverse_drop
  constructor
  · intro hall
    refine (take_all_iff_le_takeWhile (fun c => decide (c = ' ')) w.reverse (w.length - j)
      (by simp)).mp ?_
    intro c hc
    rw [← hrev] at hc
    simp only [List.mem_reverse] at hc
    simpa using hall c hc
  · intro hle c hc
    have hcrev : c ∈ (w.drop j).reverse := by simpa using hc
    rw [hrev] at hcrev
    have := (take_all_iff_le_takeWhile (fun c => decide (c = ' ')) w.reverse (w.length - j)
      (by simp)).mpr hle c hcrev
    simpa using this

theorem space_speakerClass (c : Char) (hws : isSpaceChar c = true) (hne : c ≠ ' ') :
    speakerClassChar c = false := by
  simp only [isSpaceChar, Bool.or_eq_true, decide_eq_true_eq] at hws
  rcases hws with ((((h | h) | h) | h) | h) | h
  · exact absurd h hne
  all_goals subst h
  all_goals decide

theorem ws_not_colon (c : Char) (hws : isSpaceChar c = true) : c ≠ ':' := by
  simp only [isSpaceChar, Bool.or_eq_true, decide_eq_true_eq] at hws
  rcases hws with ((((h | h) | h) | h) | h) | h
  all_goals subst h
  all_goals decide

theorem speakerAttempt_spec (wdrop r : Str) (hwd : ∀ c ∈ wdrop, c = ' ') :
    speakerAttempt (wdrop ++ r) =
      (let p := r.takeWhile speakerClassChar
       match r.drop p.length with
       | ':' :: s2 =>
         if 2 ≤ wdrop.length + p.length && !s2.isEmpty then
           let d := s2.dropWhile isSpaceChar
           some (wdrop ++ p, if d.isEmpty then s2.drop (s2.length - 1) else d)
         else none
       | _ => none) := by
  have hclass : ∀ x ∈ wdrop, speakerClassChar x = true := by
    intro x hx
    rw [hwd x hx]
    decide
  have htw : (wdrop ++ r).takeWhile speakerClassChar =
      wdrop ++ r.takeWhile speakerClassChar := takeWhile_append_all _ _ _ hclass
  have hdr : (wdrop ++ r).drop (wdrop ++ r.takeWhile speakerClassChar).length =
      r.drop (r.takeWhile speakerClassChar).length := by
    rw [List.length_append, List.drop_append_eq_append_drop]
    have h1 : wdrop.drop (wdrop.length + (r.takeWhile speakerClassChar).length) = [] := by
      apply List.drop_eq_nil_of_le
      omega
    rw [h1]
    simp
  simp only [speakerAttempt]
  rw [htw, hdr]
  simp only [List.length_append]

theorem head_dropWhile_false (p : Char → Bool) (l : List Char) (d : Char) (b : List Char)
    (h : l.dropWhile p = d :: b) : p d = false := by
  induction l with
  | nil => simp at h
  | cons c t ih =>
    rw [List.dropWhile_cons] at h
    cases hpc : p c with
    | true =>
      rw [hpc, if_pos rfl] at h
      exact ih h
    | false =>
      rw [hpc] at h
      simp only [Bool.false_eq_true, if_false, List.cons.injEq] at h
      rw [← h.1]
      exact hpc

theorem speakerAttempt_fail (wdrop r : Str) (hws : ∀ c ∈ wdrop, isSpaceChar c = true)
    (hbad : ¬ ∀ c ∈ wdrop, c = ' ') :
    speakerAttempt (wdrop ++ r) = none := by
  cases hdw : wdrop.dropWhile (fun c => c = ' ') with
  | nil =>
    refine absurd (fun c hc => ?_) hbad
    have := List.dropWhile_eq_nil_iff.mp hdw c hc
    simpa using this
  | cons d b =>
    have hdf := head_dropWhile_false _ _ _ _ hdw
    have hdne : d ≠ ' ' := by simpa using hdf
    have hdmem : d ∈ wdrop := by
      rw [← List.takeWhile_append_dropWhile (p := fun c => decide (c = ' ')) (l := wdrop), hdw]
      simp
    have hdws : isSpaceChar d = true := hws d hdmem
    have hdclass : speakerClassChar d = false := space_speakerClass d hdws hdne
    have hsplit : wdrop ++ r =
        wdrop.takeWhile (fun c => decide (c = ' ')) ++ (d :: (b ++ r)) := by
      conv_lhs => rw [← List.takeWhile_append_dropWhile (p := fun c => decide (c = ' '))
        (l := wdrop)]
      rw [hdw]
      simp
    have haclass : ∀ x ∈ wdrop.takeWhile (fun c => decide (c = ' ')),
        speakerClassChar x = true := by
      intro x hx
      have hx2 := List.mem_takeWhile_imp hx
      have hx3 : x = ' ' := by simpa using hx2
      rw [hx3]
      decide
    have htw : (wdrop ++ r).takeWhile speakerClassChar =
        wdrop.takeWhile (fun c => decide (c = ' ')) := by
      rw [hsplit, takeWhile_append_all _ _ _ haclass, List.takeWhile_cons, hdclass]
      simp
    have hdrop : (wdrop ++ r).drop
        ((wdrop.takeWhile (fun c => decide (c = ' '))).length) = d :: (b ++ r) := by
      rw [hsplit]
      exact List.drop_left _ _
    have hdcolon : d ≠ ':' := ws_not_colon d hdws
    simp only [speakerAttempt, htw, hdrop]
    split
    · rename_i heq
      injection heq with h1 _
      exact absurd h1 hdcolon
    · rfl

theorem speakerAttempt_map_snd (wdrop r : Str) (hwd : ∀ c ∈ wdrop, c = ' ') :
    (speakerAttempt (wdrop ++ r)).map Prod.snd = specSpeakerAux wdrop.length r := by
  rw [speakerAttempt_spec wdrop r hwd]
  simp only [specSpeakerAux]
  cases hm : r.drop (r.takeWhile speakerClassChar).length with
  | nil => rfl
  | cons hd tl =>
    by_cases hc : hd = ':'
    · subst hc
      cases hcond : (decide (2 ≤ wdrop.length + (r.takeWhile speakerClassChar).length) &&
          !tl.isEmpty) with
      | true => simp [hcond]
      | false => simp [hcond]
    · have h1 : ∀ (f : Str → Option (Str × Str)),
          (match hd :: tl with
           | ':' :: s2 => f s2
           | _ => none) = (none : Option (Str × Str)) := by
        intro f
        split
        · rename_i heq
          injection heq with h2 _
          exact absurd h2 hc
        · rfl
      have h2 : ∀ (g : Str → Option Str),
          (match hd :: tl with
           | ':' :: s2 => g s2
           | _ => none) = (none : Option Str) := by
        intro g
        split
        · rename_i heq
          injection heq with h3 _
          exact absurd h3 hc
        · rfl
      rw [h1, h2]
      rfl

theorem specSpeakerAux_mono (b b2 : Nat) (r : Str) (x : Str) (hb : b ≤ b2)
    (h : specSpeakerAux b r = some x) : specSpeakerAux b2 r = some x := by
  simp only [specSpeakerAux] at h ⊢
  cases hm : r.drop (r.takeWhile speakerClassChar).length with
  | nil =>
    rw [hm] at h
    exact absurd h (by simp)
  | cons hd tl =>
    rw [hm] at h
    by_cases hc : hd = ':'
    · subst hc
      cases hcond : (decide (2 ≤ b + (r.takeWhile speakerClassChar).length) &&
          !tl.isEmpty) with
      | false =>
        rw [show (match ':' :: tl with
             | ':' :: s2 =>
               if (decide (2 ≤ b + (r.takeWhile speakerClassChar).length) && !s2.isEmpty) = true
               then
                 some (if (s2.dropWhile isSpaceChar).isEmpty = true then s2.drop (s2.length - 1)
                   else s2.dropWhile isSpaceChar)
               else none
             | _ => none) =
            (if (decide (2 ≤ b + (r.takeWhile speakerClassChar).length) && !tl.isEmpty) = true
             then
               some (if (tl.dropWhile isSpaceChar).isEmpty = true then tl.drop (tl.length - 1)
                 else tl.dropWhile isSpaceChar)
             else none) from rfl, hcond] at h
        exact absurd h (by simp)
      | true =>
        simp only [Bool.and_eq_true, decide_eq_true_eq] at hcond
        simp only [show (match ':' :: tl with
             | ':' :: s2 =>
               if (decide (2 ≤ b + (r.takeWhile speakerClassChar).length) && !s2.isEmpty) = true
               then
                 some (if (s2.dropWhile isSpaceChar).isEmpty = true then s2.drop (s2.length - 1)
                   else s2.dropWhile isSpaceChar)
               else none
             | _ => none) =
            (if (decide (2 ≤ b + (r.takeWhile speakerClassChar).length) && !tl.isEmpty) = true
             then
               some (if (tl.dropWhile isSpaceChar).isEmpty = true then tl.drop (tl.length - 1)
                 else tl.dropWhile isSpaceChar)
             else none) from rfl] at h
        rw [if_pos (by simp [hcond.1, hcond.2])] at h
        have hgoal : (match ':' :: tl with
             | ':' :: s2 =>
               if (decide (2 ≤ b2 + (r.takeWhile speakerClassChar).length) && !s2.isEmpty) = true
               then
                 some (if (s2.dropWhile isSpaceChar).isEmpty = true then s2.drop (s2.length - 1)
                   else s2.dropWhile isSpaceChar)
               else none
             | _ => none) =
            (if (decide (2 ≤ b2 + (r.takeWhile speakerClassChar).length) && !tl.isEmpty) = true
             then
               some (if (tl.dropWhile isSpaceChar).isEmpty = true then tl.drop (tl.length - 1)
                 else tl.dropWhile isSpaceChar)
             else none) := rfl
        rw [hgoal, if_pos (by
            simp only [Bool.and_eq_true, decide_eq_true_eq]
            exact ⟨by omega, hcond.2⟩)]
        exact h
    · have h2 : ∀ (bb : Nat),
          (match hd :: tl with
           | ':' :: s2 =>
             if (decide (2 ≤ bb + (r.takeWhile speakerClassChar).length) && !s2.isEmpty) = true
             then
               some (if (s2.dropWhile isSpaceChar).isEmpty = true then s2.drop (s2.length - 1)
                 else s2.dropWhile isSpaceChar)
             else none
           | _ => none) = (none : Option Str) := by
        intro bb
        split
        · rename_i heq
          injection heq with h3 _
          exact absurd h3 hc
        · rfl
      rw [h2 b] at h
      exact absurd h (by simp)

theorem speakerSearch_spec (line : Str) (i : Nat)
    (hi : i ≤ (line.takeWhile isSpaceChar).length) :
    (speakerSearch line i).map Prod.snd =
      (if (line.takeWhile isSpaceChar).length - i ≤
          ((line.takeWhile isSpaceChar).reverse.takeWhile (fun c => c = ' ')).length
       then specSpeakerRest line
       else none) := by
  have hww : ∀ c ∈ line.takeWhile isSpaceChar, isSpaceChar c = true := by
    intro c hc
    exact List.mem_takeWhile_imp hc
  have hpre : line.takeWhile isSpaceChar = line.take (line.takeWhile isSpaceChar).length := by
    exact List.prefix_iff_eq_take.mp (List.takeWhile_prefix _)
  have hline : line = line.takeWhile isSpaceChar ++ line.drop (line.takeWhile isSpaceChar).length := by
    conv_lhs => rw [← List.take_append_drop (line.takeWhile isSpaceChar).length line]
    rw [← hpre]
  have hdropi : ∀ j, j ≤ (line.takeWhile isSpaceChar).length →
      line.drop j = (line.takeWhile isSpaceChar).drop j ++
        line.drop (line.takeWhile isSpaceChar).length := by
    intro j hj
    conv_lhs => rw [hline]
    rw [List.drop_append_eq_append_drop]
    have : j - (line.takeWhile isSpaceChar).length = 0 := by omega
    rw [this]
    simp
  have hkle : ((line.takeWhile isSpaceChar).reverse.takeWhile (fun c => c = ' ')).length ≤
      (line.takeWhile isSpaceChar).length := by
    have := (List.takeWhile_prefix (l := (line.takeWhile isSpaceChar).reverse)
      (p := fun c => decide (c = ' '))).length_le
    simpa using this
  induction i with
  | zero =>
    by_cases hall : ∀ c ∈ (line.takeWhile isSpaceChar).drop 0, c = ' '
    · have hk := (drop_all_space_iff _ 0 (by omega)).mp hall
      rw [if_pos (by omega)]
      have h0 : speakerSearch line 0 = speakerAttempt line := rfl
      rw [h0]
      conv_lhs => rw [hline]
      rw [speakerAttempt_map_snd _ _ (by simpa using hall)]
      simp only [specSpeakerRest]
      have hkw : ((line.takeWhile isSpaceChar).reverse.takeWhile
          (fun c => c = ' ')).length = (line.takeWhile isSpaceChar).length := by omega
      rw [hkw]
    · have hk := (drop_all_space_iff (line.takeWhile isSpaceChar) 0 (by omega))
      rw [if_neg (by
        intro hcon
        exact hall (hk.mpr (by omega)))]
      have h0 : speakerSearch line 0 = speakerAttempt line := rfl
      rw [h0]
      conv_lhs => rw [hline]
      rw [speakerAttempt_fail _ _ (fun c hc => hww c (by
        have := List.mem_of_mem_drop (n := 0) (by simpa using hc)
        exact this)) (by simpa using hall)]
      rfl
  | succ i2 ih =>
    have hi2 : i2 ≤ (line.takeWhile isSpaceChar).length := by omega
    have hstep : speakerSearch line (i2 + 1) =
        (match speakerAttempt (line.drop (i2 + 1)) with
         | some rr => some rr
         | none => speakerSearch line i2) := rfl
    rw [hstep, hdropi (i2 + 1) (by omega)]
    by_cases hall : ∀ c ∈ (line.takeWhile isSpaceChar).drop (i2 + 1), c = ' '
    · have hb := (drop_all_space_iff _ (i2 + 1) (by omega)).mp hall
      have hmap := speakerAttempt_map_snd ((line.takeWhile isSpaceChar).drop (i2 + 1))
        (line.drop (line.takeWhile isSpaceChar).length) hall
      cases hatt : speakerAttempt ((line.takeWhile isSpaceChar).drop (i2 + 1) ++
          line.drop (line.takeWhile isSpaceChar).length) with
      | some pr =>
        rw [hatt] at hmap
        rw [if_pos (by omega)]
        have hmono := specSpeakerAux_mono ((line.takeWhile isSpaceChar).drop (i2 + 1)).length
          ((line.takeWhile isSpaceChar).reverse.takeWhile (fun c => c = ' ')).length
          (line.drop (line.takeWhile isSpaceChar).length) pr.2
          (by rw [List.length_drop]; omega)
          (by rw [← hmap]; rfl)
        have hgoal : Option.map Prod.snd
            (match (some pr : Option (Str × Str)) with
             | some rr => some rr
             | none => speakerSearch line i2) = some pr.2 := rfl
        rw [hgoal]
        simp only [specSpeakerRest]
        exact hmono.symm
      | none =>
        rw [hatt] at hmap
        have hmap2 : specSpeakerAux ((line.takeWhile isSpaceChar).drop (i2 + 1)).length
            (line.drop (line.takeWhile isSpaceChar).length) = none := by
          rw [← hmap]
          rfl
        have hgoal : Option.map Prod.snd
            (match (none : Option (Str × Str)) with
             | some rr => some rr
             | none => speakerSearch line i2) =
            Option.map Prod.snd (speakerSearch line i2) := rfl
        rw [hgoal, ih hi2]
        by_cases hcase : (line.takeWhile isSpaceChar).length - i2 ≤
            ((line.takeWhile isSpaceChar).reverse.takeWhile (fun c => c = ' ')).length
        · rw [if_pos hcase, if_pos (by omega)]
        · have hbk : ((line.takeWhile isSpaceChar).drop (i2 + 1)).length =
              ((line.takeWhile isSpaceChar).reverse.takeWhile (fun c => c = ' ')).length := by
            rw [List.length_drop]
            omega
          rw [if_neg hcase, if_pos (by omega)]
          simp only [specSpeakerRest]
          rw [← hbk]
          exact hmap2.symm
    · have hbgt : ¬ ((line.takeWhile isSpaceChar).length - (i2 + 1) ≤
          ((line.takeWhile isSpaceChar).reverse.takeWhile (fun c => c = ' ')).length) := by
        intro hcon
        exact hall ((drop_all_space_iff _ (i2 + 1) (by omega)).mpr hcon)
      rw [speakerAttempt_fail _ _ (fun c hc => hww c (List.mem_of_mem_drop hc)) hall]
      rw [ih hi2]
      rw [if_neg hbgt, if_neg (by
        intro hcon
        exact hbgt (by omega))]

theorem speakerMatch_snd (line : Str) :
    (speakerMatch line).map Prod.snd = specSpeakerRest line := by
  have h := speakerSearch_spec line (line.takeWhile isSpaceChar).length (le_refl _)
  simpa using h

theorem speakerAttempt_class (t sp rst : Str) (h : speakerAttempt t = some (sp, rst)) :
    ∀ c ∈ sp, speakerClassChar c = true := by
  simp only [speakerAttempt] at h
  split at h
  · split at h
    · injection h with h1
      have hsp : t.takeWhile speakerClassChar = sp := congrArg Prod.fst h1
      intro c hc
      rw [← hsp] at hc
      exact List.mem_takeWhile_imp hc
    · exact absurd h (by simp)
  · exact absurd h (by simp)

theorem speakerSearch_class (line : Str) (i : Nat) (sp rst : Str)
    (h : speakerSearch line i = some (sp, rst)) : ∀ c ∈ sp, speakerClassChar c = true := by
  induction i with
  | zero => exact speakerAttempt_class _ _ _ h
  | succ i2 ih =>
    simp only [speakerSearch] at h
    cases hatt : speakerAttempt (line.drop (i2 + 1)) with
    | some pr =>
      rw [hatt] at h
      injection h with h1
      exact speakerAttempt_class _ _ _ (by rw [hatt, h1])
    | none =>
      rw [hatt] at h
      exact ih h

/-- Claim C5, amended: with `remove_text_before_colon` set, `_strip_speaker`
behaves as follows.  Skip the leading whitespace run; take the maximal run
of `SPEAKER_RE` name-class characters (uppercase Latin and the accented
uppercase letters, digits, space, quotes, ampersand, parentheses, period,
hyphen — lowercase letters are NOT allowed, the period IS).  If that run is
immediately followed by a colon with at least one character after it, and
the run plus the borrowable trailing spaces of the whitespace run reaches
the 2-character minimum (the regex engine backtracks `\s*`, and the space
belongs to the name class), the line is replaced by the text after the
colon with its leading whitespace dropped (keeping the final character when
everything after the colon is whitespace); otherwise the line is unchanged.
The `colon_only_if_uppercase` side condition is vacuous: every matched
prefix consists of name-class characters, which `str.upper` fixes. -/
theorem C5_characterization :
    ∀ (cfg : SDHConfig) (line : Str), cfg.remove_text_before_colon = true →
      (∀ sp rst, speakerMatch line = some (sp, rst) → sp.map pyToUpper = sp) ∧
      stripSpeaker line cfg = (specSpeakerRest line).getD line := by
  intro cfg line hcfg
  have hvac : ∀ sp rst, speakerMatch line = some (sp, rst) → sp.map pyToUpper = sp := by
    intro sp rst hm
    exact map_pyToUpper_fix sp (speakerSearch_class line _ sp rst hm)
  refine ⟨hvac, ?_⟩
  simp only [stripSpeaker, hcfg, Bool.not_true, Bool.false_eq_true, if_false]
  cases hm : speakerMatch line with
  | none =>
    have hsnd := speakerMatch_snd line
    rw [hm] at hsnd
    have : specSpeakerRest line = none := by
      rw [← hsnd]
      rfl
    rw [this]
    rfl
  | some pr =>
    obtain ⟨sp, rst⟩ := pr
    have hfix : sp.map pyToUpper = sp := hvac sp rst hm
    have hsnd := speakerMatch_snd line
    rw [hm] at hsnd
    have hspec : specSpeakerRest line = some rst := by
      rw [← hsnd]
      rfl
    rw [hspec]
    have hcond : ¬ (cfg.colon_only_if_uppercase = true ∧ sp ≠ sp.map pyToUpper) := by
      intro hcc
      exact hcc.2 hfix.symm
    simp [hcond]

/-- Witness for C5 at a concrete input: Scenario A's speaker line. -/
theorem C5_characterization_witness :
    (∀ sp rst, speakerMatch (litStr "JOHN: Get out!") = some (sp, rst) →
      sp.map pyToUpper = sp) ∧
    stripSpeaker (litStr "JOHN: Get out!") aggressiveConfig =
      (specSpeakerRest (litStr "JOHN: Get out!")).getD (litStr "JOHN: Get out!") :=
  C5_characterization aggressiveConfig (litStr "JOHN: Get out!") (by decide)

theorem removeDelimF_sublist (openC closeC : Char) (fuel : Nat) (s : Str) :
    List.Sublist (removeDelimF openC closeC fuel s) s := by
  induction fuel generalizing s with
  | zero =>
    cases s with
    | nil => simp [removeDelimF]
    | cons c rest => simp [removeDelimF]
  | succ fuel ih =>
    cases s with
    | nil => simp [removeDelimF]
    | cons c rest =>
      simp only [removeDelimF]
      by_cases hop : c = openC
      · rw [if_pos hop]
        by_cases hlt : (rest.takeWhile (fun d => d ≠ closeC)).length < rest.length
        · rw [if_pos hlt]
          exact ((ih _).trans (List.drop_sublist _ _)).trans (List.sublist_cons_self c rest)
        · rw [if_neg hlt]
          exact (ih rest).cons_cons c
      · rw [if_neg hop]
        exact (ih rest).cons_cons c

theorem takeWhile_ne_eq_self (closeC : Char) (l : Str) (h : closeC ∉ l) :
    l.takeWhile (fun d => d ≠ closeC) = l := by
  induction l with
  | nil => simp
  | cons c rest ih =>
    simp only [List.takeWhile_cons]
    have hc : c ≠ closeC := fun he => h (by simp [he])
    rw [if_pos (by simpa using hc)]
    rw [ih (fun hm => h (by simp [hm]))]

theorem removeDelimF_id_of_noMatch (openC closeC : Char) (fuel : Nat) (s : Str)
    (h : ¬ List.Sublist [openC, closeC] s) : removeDelimF openC closeC fuel s = s := by
  induction fuel generalizing s with
  | zero =>
    cases s with
    | nil => rfl
    | cons c rest => rfl
  | succ fuel ih =>
    cases s with
    | nil => rfl
    | cons c rest =>
      simp only [removeDelimF]
      by_cases hop : c = openC
      · rw [if_pos hop]
        have hnc : closeC ∉ rest := by
          intro hmem
          refine h ?_
          rw [hop]
          exact (List.singleton_sublist.mpr hmem).cons_cons openC
        rw [takeWhile_ne_eq_self closeC rest hnc]
        rw [if_neg (by omega)]
        rw [ih rest (fun hsub => h (hsub.cons c))]
      · rw [if_neg hop]
        rw [ih rest (fun hsub => h (hsub.cons c))]

theorem removeDelimF_noMatch (openC closeC : Char) (hne : openC ≠ closeC) (fuel : Nat) (s : Str)
    (hfuel : s.length ≤ fuel) : ¬ List.Sublist [openC, closeC] (removeDelimF openC closeC fuel s) := by
  induction fuel generalizing s with
  | zero =>
    cases s with
    | nil => simp [removeDelimF]
    | cons c rest => simp at hfuel
  | succ fuel ih =>
    cases s with
    | nil => simp [removeDelimF]
    | cons c rest =>
      simp only [removeDelimF]
      by_cases hop : c = openC
      · rw [if_pos hop]
        by_cases hlt : (rest.takeWhile (fun d => d ≠ closeC)).length < rest.length
        · rw [if_pos hlt]
          refine ih _ ?_
          rw [List.length_drop]
          simp only [List.length_cons] at hfuel
          omega
        · rw [if_neg hlt]
          have htw : rest.takeWhile (fun d => d ≠ closeC) = rest := by
            have hpre := List.takeWhile_prefix (l := rest) (p := fun d => d ≠ closeC)
            have hlen : (rest.takeWhile (fun d => d ≠ closeC)).length = rest.length := by
              have := hpre.length_le
              omega
            exact List.IsPrefix.eq_of_length hpre hlen
          have hnc : closeC ∉ rest := by
            intro hmem
            have := List.mem_takeWhile_imp (l := rest) (p := fun d => d ≠ closeC)
              (by rw [htw]; exact hmem)
            simp at this
          intro hsub
          cases hsub with
          | cons _ hsub2 =>
            exact ih rest (by simp only [List.length_cons] at hfuel; omega) hsub2
          | cons₂ _ hsub2 =>
            have : closeC ∈ removeDelimF openC closeC fuel rest :=
              List.singleton_sublist.mp hsub2
            exact hnc ((removeDelimF_sublist openC closeC fuel rest).subset this)
      · rw [if_neg hop]
        intro hsub
        cases hsub with
        | cons _ hsub2 =>
          exact ih rest (by simp only [List.length_cons] at hfuel; omega) hsub2
        | cons₂ _ hsub2 => exact hop rfl

theorem removeDelimited_id_of_noMatch (openC closeC : Char) (s : Str)
    (h : ¬ List.Sublist [openC, closeC] s) : removeDelimited openC closeC s = s :=
  removeDelimF_id_of_noMatch openC closeC s.length s h

theorem removeDelimited_sublist (openC closeC : Char) (s : Str) :
    List.Sublist (removeDelimited openC closeC s) s :=
  removeDelimF_sublist openC closeC s.length s

theorem removeDelimited_noMatch (openC closeC : Char) (hne : openC ≠ closeC) (s : Str) :
    ¬ List.Sublist [openC, closeC] (removeDelimited openC closeC s) :=
  removeDelimF_noMatch openC closeC hne s.length s (le_refl _)

theorem isCollapsed_tail (c : Char) (rest : Str) (h : isCollapsed (c :: rest) = true) :
    isCollapsed rest = true := by
  simp only [isCollapsed, Bool.and_eq_true] at h
  exact h.2

theorem isCollapsed_collapseWsF (fuel : Nat) (s : Str) (hfuel : s.length ≤ fuel) :
    isCollapsed (collapseWsF fuel s) = true := by
  induction fuel generalizing s with
  | zero =>
    cases s with
    | nil => rfl
    | cons c rest => simp at hfuel
  | succ fuel ih =>
    cases s with
    | nil => rfl
    | cons c rest =>
      simp only [collapseWsF]
      simp only [List.length_cons] at hfuel
      by_cases hws : isSpaceChar c
      · rw [if_pos hws]
        have hlen : (rest.dropWhile isSpaceChar).length ≤ fuel := by
          have := (List.dropWhile_sublist (p := isSpaceChar) (l := rest)).length_le
          omega
        have hrec := ih (rest.dropWhile isSpaceChar) hlen
        simp only [isCollapsed, Bool.and_eq_true]
        refine ⟨?_, hrec⟩
        rw [if_pos (by decide)]
        refine (Bool.and_eq_true _ _).mpr ⟨by decide, ?_⟩
        cases ht : rest.dropWhile isSpaceChar with
        | nil =>
          cases fuel with
          | zero => rfl
          | succ f2 => rfl
        | cons d t2 =>
          have hd : isSpaceChar d = false := head_dropWhile_false _ _ _ _ ht
          rw [ht] at hlen
          cases fuel with
          | zero => simp at hlen
          | succ f2 =>
            simp only [collapseWsF, hd, Bool.false_eq_true, if_false]
            simp [hd]
      · rw [if_neg hws]
        simp only [isCollapsed, Bool.and_eq_true]
        exact ⟨by rw [if_neg hws], ih rest (by omega)⟩

theorem collapseWsF_id (s : Str) (h : isCollapsed s = true) (fuel : Nat) :
    collapseWsF fuel s = s := by
  induction s generalizing fuel with
  | nil =>
    cases fuel with
    | zero => rfl
    | succ f2 => rfl
  | cons c rest ih =>
    cases fuel with
    | zero => rfl
    | succ f2 =>
      simp only [isCollapsed, Bool.and_eq_true] at h
      obtain ⟨hc, hrest⟩ := h
      simp only [collapseWsF]
      by_cases hws : isSpaceChar c
      · rw [if_pos hws] at hc ⊢
        simp only [Bool.and_eq_true, decide_eq_true_eq] at hc
        obtain ⟨hsp, hnext⟩ := hc
        have hdw : rest.dropWhile isSpaceChar = rest := by
          cases rest with
          | nil => rfl
          | cons d t2 =>
            have hd : isSpaceChar d = false := by
              simpa using hnext
            rw [List.dropWhile_cons, hd]
            simp
        rw [hdw, ih hrest f2, hsp]
      · rw [if_neg hws]
        rw [ih hrest f2]

theorem collapseWs_id (s : Str) (h : isCollapsed s = true) : collapseWs s = s :=
  collapseWsF_id s h s.length

theorem isCollapsed_append_left (a b : Str) (h : isCollapsed (a ++ b) = true) :
    isCollapsed a = true := by
  induction a with
  | nil => rfl
  | cons c a2 ih =>
    simp only [List.cons_append, isCollapsed, Bool.and_eq_true] at h
    obtain ⟨hc, hrest⟩ := h
    simp only [isCollapsed, Bool.and_eq_true]
    refine ⟨?_, ih hrest⟩
    by_cases hws : isSpaceChar c
    · rw [if_pos hws] at hc ⊢
      simp only [Bool.and_eq_true] at hc ⊢
      refine ⟨hc.1, ?_⟩
      cases a2 with
      | nil => rfl
      | cons d t2 =>
        have := hc.2
        simpa using this
    · rw [if_neg hws]

theorem isCollapsed_dropWhile (p : Char → Bool) (s : Str) (h : isCollapsed s = true) :
    isCollapsed (s.dropWhile p) = true := by
  induction s with
  | nil => exact h
  | cons c rest ih =>
    rw [List.dropWhile_cons]
    by_cases hp : p c
    · rw [if_pos hp]
      exact ih (isCollapsed_tail c rest h)
    · rw [if_neg hp]
      exact h

theorem stripWs_front (s : Str) : stripWs s <+: s.dropWhile isSpaceChar := by
  have h0 : (s.dropWhile isSpaceChar).reverse.dropWhile isSpaceChar <:+
      (s.dropWhile isSpaceChar).reverse := List.dropWhile_suffix _
  have h1 := List.reverse_prefix.mpr h0
  rw [List.reverse_reverse] at h1
  exact h1

theorem isCollapsed_stripWs (s : Str) (h : isCollapsed s = true) :
    isCollapsed (stripWs s) = true := by
  have h1 : isCollapsed (s.dropWhile isSpaceChar) = true := isCollapsed_dropWhile _ _ h
  obtain ⟨t, ht⟩ := stripWs_front s
  exact isCollapsed_append_left _ t (by rw [ht]; exact h1)

theorem dropWhile_idem (p : Char → Bool) (l : Str) :
    (l.dropWhile p).dropWhile p = l.dropWhile p := by
  cases hd : l.dropWhile p with
  | nil => rfl
  | cons d t =>
    have := head_dropWhile_false p l d t hd
    rw [List.dropWhile_cons, this]
    simp

theorem stripWs_dropWhile_fix (s : Str) :
    (stripWs s).dropWhile isSpaceChar = stripWs s := by
  cases hb : stripWs s with
  | nil => rfl
  | cons b rest =>
    obtain ⟨t, ht⟩ := stripWs_front s
    rw [hb] at ht
    cases hA : s.dropWhile isSpaceChar with
    | nil =>
      rw [hA] at ht
      simp at ht
    | cons a0 arest =>
      have hhead : b = a0 := by
        rw [hA] at ht
        have := congrArg List.head? ht
        simpa using this
      have ha0 : isSpaceChar a0 = false := head_dropWhile_false _ _ _ _ hA
      rw [List.dropWhile_cons, hhead, ha0]
      simp

theorem stripWs_idem (s : Str) : stripWs (stripWs s) = stripWs s := by
  have hx : (stripWs s).reverse = (s.dropWhile isSpaceChar).reverse.dropWhile isSpaceChar := by
    simp only [stripWs, List.reverse_reverse]
  show (((stripWs s).dropWhile isSpaceChar).reverse.dropWhile isSpaceChar).reverse = stripWs s
  rw [stripWs_dropWhile_fix, hx, dropWhile_idem, ← hx, List.reverse_reverse]

theorem stripWs_sublist (s : Str) : List.Sublist (stripWs s) s :=
  (stripWs_front s).sublist.trans (List.dropWhile_sublist _)

theorem mem_collapseWsF (fuel : Nat) (s : Str) (c : Char) (h : c ∈ collapseWsF fuel s) :
    c ∈ s ∨ c = ' ' := by
  induction fuel generalizing s with
  | zero =>
    cases s with
    | nil => simp [collapseWsF] at h
    | cons c0 rest => exact Or.inl h
  | succ fuel ih =>
    cases s with
    | nil => simp [collapseWsF] at h
    | cons c0 rest =>
      simp only [collapseWsF] at h
      by_cases hws : isSpaceChar c0
      · rw [if_pos hws] at h
        rcases List.mem_cons.mp h with h2 | h2
        · exact Or.inr h2
        · rcases ih _ h2 with h3 | h3
          · exact Or.inl (by
              have := (List.dropWhile_sublist (p := isSpaceChar) (l := rest)).subset h3
              simp [this])
          · exact Or.inr h3
      · rw [if_neg hws] at h
        rcases List.mem_cons.mp h with h2 | h2
        · exact Or.inl (by simp [h2])
        · rcases ih _ h2 with h3 | h3
          · exact Or.inl (by simp [h3])
          · exact Or.inr h3

theorem filter_nonws_dropWhile (l : Str) :
    (l.dropWhile isSpaceChar).filter (fun c => !isSpaceChar c) =
      l.filter (fun c => !isSpaceChar c) := by
  induction l with
  | nil => rfl
  | cons c rest ih =>
    rw [List.dropWhile_cons]
    by_cases hws : isSpaceChar c
    · rw [if_pos hws, ih, List.filter_cons]
      rw [if_neg (by simp [hws])]
    · rw [if_neg hws]

theorem filter_nonws_collapseWsF (fuel : Nat) (s : Str) (hfuel : s.length ≤ fuel) :
    (collapseWsF fuel s).filter (fun c => !isSpaceChar c) =
      s.filter (fun c => !isSpaceChar c) := by
  induction fuel generalizing s with
  | zero =>
    cases s with
    | nil => rfl
    | cons c rest => simp at hfuel
  | succ fuel ih =>
    cases s with
    | nil => rfl
    | cons c rest =>
      simp only [collapseWsF]
      simp only [List.length_cons] at hfuel
      by_cases hws : isSpaceChar c
      · rw [if_pos hws, List.filter_cons, List.filter_cons]
        rw [if_neg (by decide), if_neg (by simp [hws])]
        have hlen : (rest.dropWhile isSpaceChar).length ≤ fuel := by
          have := (List.dropWhile_sublist (p := isSpaceChar) (l := rest)).length_le
          omega
        rw [ih _ hlen, filter_nonws_dropWhile]
      · rw [if_neg hws, List.filter_cons, List.filter_cons]
        rw [if_pos (by simp [hws]), if_pos (by simp [hws])]
        rw [ih rest (by omega)]

theorem shieldGoF_id (ml : Str → Option Nat) (P : Char → Bool)
    (hml : ∀ c cs n, ml (c :: cs) = some n → P c = true)
    (fuel : Nat) (s : Str) (acc : List Str) (hs : ∀ c ∈ s, P c = false) :
    shieldGoF ml fuel s acc = (s, acc) := by
  induction fuel generalizing s acc with
  | zero =>
    cases s with
    | nil => rfl
    | cons c rest => rfl
  | succ fuel ih =>
    cases s with
    | nil => rfl
    | cons c rest =>
      simp only [shieldGoF]
      cases hm : ml (c :: rest) with
      | some n =>
        have h1 := hml c rest n hm
        rw [hs c (by simp)] at h1
        cases h1
      | none =>
        rw [ih rest acc (fun x hx => hs x (by simp [hx]))]

theorem matchBrLen_trigger (c : Char) (cs : Str) (n : Nat) (h : matchBrLen (c :: cs) = some n) :
    c = '<' := by
  by_contra hc
  have hnone : matchBrLen (c :: cs) = none := by
    unfold matchBrLen
    split
    · rename_i b r rest heq
      injection heq with h1 _
      exact absurd h1 hc
    · rfl
  rw [hnone] at h
  exact absurd h (by simp)

theorem matchHtmlLen_trigger (c : Char) (cs : Str) (n : Nat)
    (h : matchHtmlLen (c :: cs) = some n) : c = '<' := by
  by_contra hc
  have hnone : matchHtmlLen (c :: cs) = none := by
    unfold matchHtmlLen
    split
    · rename_i rest heq
      injection heq with h1 _
      exact absurd h1 hc
    · rfl
  rw [hnone] at h
  exact absurd h (by simp)

theorem matchBraceLen_trigger (c : Char) (cs : Str) (n : Nat)
    (h : matchBraceLen (c :: cs) = some n) : c = '{' := by
  by_contra hc
  have hnone : matchBraceLen (c :: cs) = none := by
    unfold matchBraceLen
    split
    · rename_i rest heq
      injection heq with h1 _
      exact absurd h1 hc
    · rfl
  rw [hnone] at h
  exact absurd h (by simp)

theorem matchNlLen_trigger (c : Char) (cs : Str) (n : Nat)
    (h : matchNlLen (c :: cs) = some n) : c = '\\' := by
  by_contra hc
  have hnone : matchNlLen (c :: cs) = none := by
    unfold matchNlLen
    split
    · rename_i d rest heq
      injection heq with h1 _
      exact absurd h1 hc
    · rfl
  rw [hnone] at h
  exact absurd h (by simp)

theorem shieldGo_id_of_no_trigger (line : Str) (acc : List Str)
    (htr : ∀ c ∈ line, isTagTrigger c = false) :
    shieldGo matchBrLen line acc = (line, acc) ∧
    shieldGo matchHtmlLen line acc = (line, acc) ∧
    shieldGo matchBraceLen line acc = (line, acc) ∧
    shieldGo matchNlLen line acc = (line, acc) := by
  have hsplit : ∀ c ∈ line, ¬ c = '<' ∧ ¬ c = '{' ∧ ¬ c = '\\' := by
    intro c hc
    have h0 := htr c hc
    simp only [isTagTrigger, Bool.or_eq_false_iff, decide_eq_false_iff_not] at h0
    exact ⟨h0.1.1, h0.1.2, h0.2⟩
  have hlt : ∀ c ∈ line, (decide (c = '<')) = false := fun c hc =>
    decide_eq_false (hsplit c hc).1
  have hbr : ∀ c ∈ line, (decide (c = '{')) = false := fun c hc =>
    decide_eq_false (hsplit c hc).2.1
  have hbs : ∀ c ∈ line, (decide (c = '\\')) = false := fun c hc =>
    decide_eq_false (hsplit c hc).2.2
  refine ⟨?_, ?_, ?_, ?_⟩
  · exact shieldGoF_id matchBrLen (fun c => decide (c = '<'))
      (fun c cs n h => by simp [matchBrLen_trigger c cs n h]) line.length line acc hlt
  · exact shieldGoF_id matchHtmlLen (fun c => decide (c = '<'))
      (fun c cs n h => by simp [matchHtmlLen_trigger c cs n h]) line.length line acc hlt
  · exact shieldGoF_id matchBraceLen (fun c => decide (c = '{'))
      (fun c cs n h => by simp [matchBraceLen_trigger c cs n h]) line.length line acc hbr
  · exact shieldGoF_id matchNlLen (fun c => decide (c = '\\'))
      (fun c cs n h => by simp [matchNlLen_trigger c cs n h]) line.length line acc hbs

theorem restoreTags_nil (y : Str) : restoreTags y [] = y := rfl

/-- With the standalone-bracket rule and the speaker rule disabled, and no
markup/override/escape characters in the line, `clean_line` is inline
bracket removal, whitespace normalization, and the music filter. -/
theorem clean_line_restricted (line : Str) (cfg : SDHConfig)
    (hsep : cfg.between_only_if_separate_line = false)
    (hsp : cfg.remove_text_before_colon = false)
    (htr : ∀ c ∈ line, isTagTrigger c = false) :
    clean_line line cfg =
      (if cfg.remove_if_only_music_symbols &&
          onlyMusic (stripWs (collapseWs (removeInlineBrackets line cfg))) then none
       else some (stripWs (collapseWs (removeInlineBrackets line cfg)))) := by
  obtain ⟨h1, h2, h3, h4⟩ := shieldGo_id_of_no_trigger line [] htr
  have hdrop : shouldDropLineForBrackets line cfg = false := by
    simp [shouldDropLineForBrackets, hsep]
  have hspk : ∀ s : Str, stripSpeaker s cfg = s := by
    intro s
    simp [stripSpeaker, hsp]
  simp only [clean_line, hdrop, Bool.false_eq_true, if_false, h1, h2, h3, h4, hspk,
    restoreTags_nil]

/-- `_remove_inline_brackets` only deletes characters. -/
theorem removeInlineBrackets_sublist (line : Str) (cfg : SDHConfig) :
    List.Sublist (removeInlineBrackets line cfg) line := by
  simp only [removeInlineBrackets]
  have h1 : List.Sublist
      (if (cfg.remove_between_square && !cfg.between_only_if_separate_line) = true
       then removeDelimited '[' ']' line else line) line := by
    split
    · exact removeDelimited_sublist _ _ _
    · exact List.Sublist.refl _
  split
  · exact (removeDelimited_sublist _ _ _).trans h1
  · exact h1

/-- A non-whitespace pattern embedded in the collapsed string was already
embedded in the original. -/
theorem sublist_nonws_collapseWs (pat s : Str)
    (hpat : pat.filter (fun c => !isSpaceChar c) = pat)
    (h : List.Sublist pat (collapseWs s)) : List.Sublist pat s := by
  have h2 := List.Sublist.filter (fun c => !isSpaceChar c) h
  rw [hpat] at h2
  simp only [collapseWs] at h2
  rw [filter_nonws_collapseWsF s.length s (le_refl _)] at h2
  exact h2.trans (List.filter_sublist s)

/-- Absence of a (non-whitespace) delimiter pair survives whitespace
normalization. -/
theorem noMatch_strip_collapse (openC closeC : Char)
    (hw1 : isSpaceChar openC = false) (hw2 : isSpaceChar closeC = false) (s : Str)
    (h : ¬ List.Sublist [openC, closeC] s) :
    ¬ List.Sublist [openC, closeC] (stripWs (collapseWs s)) := by
  intro hsub
  refine h (sublist_nonws_collapseWs [openC, closeC] s ?_ (hsub.trans (stripWs_sublist _)))
  rw [List.filter_cons, List.filter_cons]
  rw [if_pos (by simp [hw1]), if_pos (by simp [hw2])]
  rfl

theorem isCollapsed_collapseWs (s : Str) : isCollapsed (collapseWs s) = true :=
  isCollapsed_collapseWsF s.length s (le_refl _)

/-- Characters of the restricted `clean_line` output come from the input
or are plain spaces, so the output is again free of trigger characters. -/
theorem no_trigger_of_clean (line : Str) (cfg : SDHConfig)
    (htr : ∀ c ∈ line, isTagTrigger c = false) :
    ∀ c ∈ stripWs (collapseWs (removeInlineBrackets line cfg)), isTagTrigger c = false := by
  intro c hc
  have h1 := (stripWs_sublist _).subset hc
  simp only [collapseWs] at h1
  rcases mem_collapseWsF _ _ c h1 with h2 | h2
  · exact htr c ((removeInlineBrackets_sublist line cfg).subset h2)
  · rw [h2]; decide

/-- The restricted `clean_line` output is a fixed point of inline bracket
removal: every active bracket rule already removed its matches, and absence
of matches survives whitespace normalization. -/
theorem removeInlineBrackets_fix (line y : Str) (cfg : SDHConfig)
    (hy : y = stripWs (collapseWs (removeInlineBrackets line cfg))) :
    removeInlineBrackets y cfg = y := by
  have hsq : (cfg.remove_between_square && !cfg.between_only_if_separate_line) = true →
      ¬ List.Sublist ['[', ']'] y := by
    intro hflag
    rw [hy]
    apply noMatch_strip_collapse '[' ']' (by decide) (by decide)
    simp only [removeInlineBrackets]
    rw [if_pos hflag]
    intro hsub
    by_cases hpar : (cfg.remove_between_paren && !cfg.between_only_if_separate_line) = true
    · rw [if_pos hpar] at hsub
      exact removeDelimited_noMatch '[' ']' (by decide) line
        (hsub.trans (removeDelimited_sublist '(' ')' _))
    · rw [if_neg hpar] at hsub
      exact removeDelimited_noMatch '[' ']' (by decide) line hsub
  have hpr : (cfg.remove_between_paren && !cfg.between_only_if_separate_line) = true →
      ¬ List.Sublist ['(', ')'] y := by
    intro hflag
    rw [hy]
    apply noMatch_strip_collapse '(' ')' (by decide) (by decide)
    simp only [removeInlineBrackets]
    rw [if_pos hflag]
    exact removeDelimited_noMatch '(' ')' (by decide) _
  simp only [removeInlineBrackets]
  by_cases h1 : (cfg.remove_between_square && !cfg.between_only_if_separate_line) = true
  · rw [if_pos h1, removeDelimited_id_of_noMatch '[' ']' y (hsq h1)]
    by_cases h2 : (cfg.remove_between_paren && !cfg.between_only_if_separate_line) = true
    · rw [if_pos h2, removeDelimited_id_of_noMatch '(' ')' y (hpr h2)]
    · rw [if_neg h2]
  · rw [if_neg h1]
    by_cases h2 : (cfg.remove_between_paren && !cfg.between_only_if_separate_line) = true
    · rw [if_pos h2, removeDelimited_id_of_noMatch '(' ')' y (hpr h2)]
    · rw [if_neg h2]

/-- Under the restricted configuration and trigger-free input, every line
`clean_line` keeps is a fixed point of `clean_line`. -/
theorem clean_line_fixed (line y : Str) (cfg : SDHConfig)
    (hsep : cfg.between_only_if_separate_line = false)
    (hsp : cfg.remove_text_before_colon = false)
    (htr : ∀ c ∈ line, isTagTrigger c = false)
    (hy : clean_line line cfg = some y) :
    clean_line y cfg = some y := by
  rw [clean_line_restricted line cfg hsep hsp htr] at hy
  by_cases hm : (cfg.remove_if_only_music_symbols &&
      onlyMusic (stripWs (collapseWs (removeInlineBrackets line cfg)))) = true
  · rw [if_pos hm] at hy
    cases hy
  · rw [if_neg hm] at hy
    have hyeq : y = stripWs (collapseWs (removeInlineBrackets line cfg)) :=
      (Option.some.inj hy).symm
    have htry : ∀ c ∈ y, isTagTrigger c = false := by
      rw [hyeq]
      exact no_trigger_of_clean line cfg htr
    have hfix : removeInlineBrackets y cfg = y := removeInlineBrackets_fix line y cfg hyeq
    have hcol : collapseWs y = y := by
      rw [hyeq]
      exact collapseWs_id _ (isCollapsed_stripWs _ (isCollapsed_collapseWs _))
    have hstr : stripWs y = y := by
      rw [hyeq]
      exact stripWs_idem _
    rw [clean_line_restricted y cfg hsep hsp htry, hfix, hcol, hstr, hyeq, if_neg hm]

/-- Cleaning a block's already-cleaned text lines changes nothing. -/
theorem cleanTexts_fixed (texts : List Str) (cfg : SDHConfig)
    (hsep : cfg.between_only_if_separate_line = false)
    (hsp : cfg.remove_text_before_colon = false)
    (htr : ∀ t ∈ texts, ∀ c ∈ t, isTagTrigger c = false) :
    cleanTexts (cleanTexts texts cfg) cfg = cleanTexts texts cfg := by
  induction texts with
  | nil => rfl
  | cons t rest ih =>
    have ihr := ih (fun t2 h2 => htr t2 (List.mem_cons_of_mem _ h2))
    cases hcl : clean_line t cfg with
    | none =>
      simp only [cleanTexts, hcl]
      exact ihr
    | some r =>
      cases hre : r.isEmpty with
      | true =>
        simp [cleanTexts, hcl, hre]
        exact ihr
      | false =>
        have hfix := clean_line_fixed t r cfg hsep hsp (htr t (List.mem_cons_self t rest)) hcl
        simp [cleanTexts, hcl, hre, hfix, ihr]

/-- The SDH-to-Full block pass is idempotent on trigger-free, restricted
input. -/
theorem sdh_blocks_fixed (blocks : List SRTBlock) (cfg : SDHConfig)
    (hsep : cfg.between_only_if_separate_line = false)
    (hsp : cfg.remove_text_before_colon = false)
    (htr : ∀ b ∈ blocks, ∀ t ∈ b.texts, ∀ c ∈ t, isTagTrigger c = false) :
    sdh_to_full_blocks (sdh_to_full_blocks blocks cfg) cfg = sdh_to_full_blocks blocks cfg := by
  induction blocks with
  | nil => rfl
  | cons b rest ih =>
    have ihr := ih (fun b2 h2 => htr b2 (List.mem_cons_of_mem _ h2))
    have hct := cleanTexts_fixed b.texts cfg hsep hsp (htr b (List.mem_cons_self b rest))
    cases hne : (cleanTexts b.texts cfg).isEmpty with
    | true =>
      simp [sdh_to_full_blocks, hne]
      exact ihr
    | false =>
      simp [sdh_to_full_blocks, hne, hct, ihr]

/-- C3 (amended): SDH-to-Full is idempotent when the standalone-bracket rule
(`between_only_if_separate_line`) and the speaker rule
(`remove_text_before_colon`) are disabled and no text line contains a
markup/override/escape trigger character; counterexamples show both
restrictions are needed on the unrestricted claim. -/
theorem C3_idempotent_restricted (blocks : List SRTBlock) (cfg : SDHConfig)
    (hsep : cfg.between_only_if_separate_line = false)
    (hsp : cfg.remove_text_before_colon = false)
    (htr : ∀ b ∈ blocks, ∀ t ∈ b.texts, ∀ c ∈ t, isTagTrigger c = false) :
    sdh_to_full_blocks (sdh_to_full_blocks blocks cfg) cfg = sdh_to_full_blocks blocks cfg :=
  sdh_blocks_fixed blocks cfg hsep hsp htr

theorem C3_idempotent_restricted_witness :
    sdh_to_full_blocks
        (sdh_to_full_blocks [⟨litStr "1", litStr "00:00:01,000 --> 00:00:02,000",
          [litStr "a [b] c"]⟩] ⟨true, true, false, false, false, true⟩)
        ⟨true, true, false, false, false, true⟩ =
      sdh_to_full_blocks [⟨litStr "1", litStr "00:00:01,000 --> 00:00:02,000",
          [litStr "a [b] c"]⟩] ⟨true, true, false, false, false, true⟩ :=
  C3_idempotent_restricted
    [⟨litStr "1", litStr "00:00:01,000 --> 00:00:02,000", [litStr "a [b] c"]⟩]
    ⟨true, true, false, false, false, true⟩ rfl rfl (by decide)


theorem digit_not_ws (c : Char) (h : isDigitChar c = true) : isSpaceChar c = false := by
  by_contra hh
  rw [Bool.not_eq_false] at hh
  simp only [isSpaceChar, Bool.or_eq_true, decide_eq_true_eq] at hh
  rcases hh with ((((he | he) | he) | he) | he) | he
  all_goals subst he
  all_goals exact absurd h (by decide)

theorem isDigit_ofNat_digit (m : Nat) (h : m < 10) :
    isDigitChar (Char.ofNat (48 + m)) = true := by
  interval_cases m
  all_goals decide

theorem char_toNat_digit (m : Nat) (h : m < 10) : (Char.ofNat (48 + m)).toNat = 48 + m := by
  interval_cases m
  all_goals decide

theorem natDigitsF_digits (fuel : Nat) : ∀ (n : Nat), ∀ c ∈ natDigitsF fuel n, isDigitChar c = true := by
  induction fuel with
  | zero =>
    intro n c hc
    simp only [natDigitsF, List.mem_singleton] at hc
    subst hc
    exact isDigit_ofNat_digit (n % 10) (Nat.mod_lt _ (by omega))
  | succ fuel ih =>
    intro n c hc
    simp only [natDigitsF] at hc
    by_cases h10 : n < 10
    · rw [if_pos h10] at hc
      simp only [List.mem_singleton] at hc
      subst hc
      exact isDigit_ofNat_digit n h10
    · rw [if_neg h10] at hc
      rcases List.mem_append.mp hc with h2 | h2
      · exact ih _ c h2
      · simp only [List.mem_singleton] at h2
        subst h2
        exact isDigit_ofNat_digit (n % 10) (Nat.mod_lt _ (by omega))

theorem natDigits_digits (n : Nat) : ∀ c ∈ natDigits n, isDigitChar c = true :=
  natDigitsF_digits n n

theorem natDigitsF_ne_nil (fuel n : Nat) : natDigitsF fuel n ≠ [] := by
  cases fuel with
  | zero => simp [natDigitsF]
  | succ fuel =>
    simp only [natDigitsF]
    split
    · simp
    · simp

theorem natDigits_ne_nil (n : Nat) : natDigits n ≠ [] := natDigitsF_ne_nil n n

theorem digitsToNat_snoc (A : Str) (c : Char) :
    digitsToNat (A ++ [c]) = digitsToNat A * 10 + (c.toNat - 48) := by
  simp [digitsToNat, List.foldl_append]

theorem digitsToNat_natDigitsF (fuel : Nat) : ∀ (n : Nat), n ≤ fuel →
    digitsToNat (natDigitsF fuel n) = n := by
  induction fuel with
  | zero =>
    intro n h
    have hn : n = 0 := by omega
    subst hn
    decide
  | succ fuel ih =>
    intro n h
    simp only [natDigitsF]
    by_cases h10 : n < 10
    · rw [if_pos h10]
      simp only [digitsToNat, List.foldl]
      rw [char_toNat_digit n h10]
      omega
    · rw [if_neg h10]
      rw [digitsToNat_snoc]
      have hdiv : n / 10 ≤ fuel := by
        have := Nat.div_lt_self (show 0 < n by omega) (show 1 < 10 by omega)
        omega
      rw [ih (n / 10) hdiv]
      rw [char_toNat_digit (n % 10) (Nat.mod_lt _ (by omega))]
      have := Nat.div_add_mod n 10
      omega

theorem natDigits_inj (m n : Nat) (h : natDigits m = natDigits n) : m = n := by
  have h1 := digitsToNat_natDigitsF m m (le_refl _)
  have h2 := digitsToNat_natDigitsF n n (le_refl _)
  simp only [natDigits] at h
  rw [h] at h1
  rw [h2] at h1
  exact h1.symm

theorem tagToken_length (k : Nat) : (tagToken k).length = (natDigits k).length + 8 := by
  simp [tagToken]

theorem tagToken_chars (k : Nat) (c : Char) (hc : c ∈ tagToken k) :
    c = '_' ∨ c = 'T' ∨ c = 'A' ∨ c = 'G' ∨ isDigitChar c = true := by
  simp only [tagToken, List.mem_cons, List.mem_append, List.mem_singleton,
    List.not_mem_nil, or_false] at hc
  rcases hc with rfl | rfl | rfl | rfl | rfl | rfl | h | rfl | rfl
  · exact Or.inl rfl
  · exact Or.inl rfl
  · exact Or.inr (Or.inl rfl)
  · exact Or.inr (Or.inr (Or.inl rfl))
  · exact Or.inr (Or.inr (Or.inr (Or.inl rfl)))
  · exact Or.inl rfl
  · exact Or.inr (Or.inr (Or.inr (Or.inr (natDigits_digits k c h))))
  · exact Or.inl rfl
  · exact Or.inl rfl

theorem tagToken_char_ne (k : Nat) (c : Char) (hc : c ∈ tagToken k) :
    c ≠ '<' ∧ c ≠ '{' ∧ c ≠ '\\' ∧ c ≠ '[' ∧ c ≠ '(' ∧ isSpaceChar c = false := by
  rcases tagToken_chars k c hc with rfl | rfl | rfl | rfl | hd
  · exact ⟨by decide, by decide, by decide, by decide, by decide, by decide⟩
  · exact ⟨by decide, by decide, by decide, by decide, by decide, by decide⟩
  · exact ⟨by decide, by decide, by decide, by decide, by decide, by decide⟩
  · exact ⟨by decide, by decide, by decide, by decide, by decide, by decide⟩
  · refine ⟨?_, ?_, ?_, ?_, ?_, digit_not_ws c hd⟩
    all_goals intro he
    all_goals subst he
    all_goals exact absurd hd (by decide)

theorem stripPrefixQ_cons (p : Char) (ps : Str) (c : Char) (cs : Str) :
    stripPrefixQ (p :: ps) (c :: cs) = if p = c then stripPrefixQ ps cs else none := rfl

theorem stripPrefixQ_self_append (p s : Str) : stripPrefixQ p (p ++ s) = some s := by
  induction p with
  | nil => rfl
  | cons c p' ih =>
    rw [List.cons_append, stripPrefixQ_cons, if_pos rfl]
    exact ih

theorem stripPrefixQ_head_ne (k : Nat) (c : Char) (s : Str) (hne : c ≠ '_') :
    stripPrefixQ (tagToken k) (c :: s) = none := by
  simp only [tagToken, stripPrefixQ_cons]
  rw [if_neg (fun he => hne he.symm)]

theorem stripPrefixQ_uX (k : Nat) (c : Char) (s : Str) (hne : c ≠ '_') :
    stripPrefixQ (tagToken k) ('_' :: c :: s) = none := by
  simp only [tagToken, stripPrefixQ_cons, if_true]
  rw [if_neg (fun he => hne he.symm)]

theorem stripPrefixQ_uuR (k : Nat) (R : Str) (hR : R.head? ≠ some 'T') :
    stripPrefixQ (tagToken k) ('_' :: '_' :: R) = none := by
  simp only [tagToken, stripPrefixQ_cons, if_true]
  cases R with
  | nil => rfl
  | cons c R2 =>
    rw [stripPrefixQ_cons, if_neg (fun he => hR (by simp [← he]))]

theorem stripPrefixQ_uR (k : Nat) (R : Str)
    (hR : ∀ R2, R = '_' :: R2 → R2.head? ≠ some 'T') :
    stripPrefixQ (tagToken k) ('_' :: R) = none := by
  simp only [tagToken, stripPrefixQ_cons, if_true]
  cases R with
  | nil => rfl
  | cons c R2 =>
    rw [stripPrefixQ_cons]
    by_cases hc : ('_' : Char) = c
    · rw [if_pos hc]
      have hT := hR R2 (by rw [← hc])
      cases R2 with
      | nil => rfl
      | cons d R3 =>
        rw [stripPrefixQ_cons, if_neg (fun he => hT (by simp [← he]))]
    · rw [if_neg hc]

theorem stripPrefixQ_digits (d1 : Str) : ∀ (d2 R : Str),
    (∀ c ∈ d1, isDigitChar c = true) → (∀ c ∈ d2, isDigitChar c = true) → d1 ≠ d2 →
    stripPrefixQ (d1 ++ ['_', '_']) (d2 ++ '_' :: '_' :: R) = none := by
  induction d1 with
  | nil =>
    intro d2 R h1 h2 hne
    cases d2 with
    | nil => exact absurd rfl hne
    | cons c2 d2' =>
      rw [List.nil_append, List.cons_append, stripPrefixQ_cons]
      have hc2 : ('_' : Char) ≠ c2 := fun he => by
        have hd := h2 c2 (List.mem_cons_self _ _)
        rw [← he] at hd
        exact absurd hd (by decide)
      rw [if_neg hc2]
  | cons c1 d1' ih =>
    intro d2 R h1 h2 hne
    cases d2 with
    | nil =>
      rw [List.cons_append, List.nil_append, stripPrefixQ_cons]
      have hc1 : c1 ≠ '_' := fun he => by
        have hd := h1 c1 (List.mem_cons_self _ _)
        rw [he] at hd
        exact absurd hd (by decide)
      rw [if_neg hc1]
    | cons c2 d2' =>
      rw [List.cons_append, List.cons_append, stripPrefixQ_cons]
      by_cases hc : c1 = c2
      · rw [if_pos hc]
        subst hc
        exact ih d2' R (fun c h => h1 c (by simp [h])) (fun c h => h2 c (by simp [h]))
          (fun he => hne (by rw [he]))
      · rw [if_neg hc]

theorem stripPrefixQ_toks (k j : Nat) (hne : k ≠ j) (R : Str) :
    stripPrefixQ (tagToken k) (tagToken j ++ R) = none := by
  simp only [tagToken, List.cons_append, List.append_assoc]
  simp only [stripPrefixQ_cons, if_pos rfl]
  exact stripPrefixQ_digits (natDigits k) (natDigits j) R (natDigits_digits k)
    (natDigits_digits j) (fun he => hne (natDigits_inj _ _ he))

theorem tagToken_cons (k : Nat) :
    tagToken k = '_' :: ('_' :: 'T' :: 'A' :: 'G' :: '_' :: (natDigits k ++ ['_', '_'])) := rfl

theorem replaceAllF_zero (pat rep s : Str) : replaceAllF pat rep 0 s = s := by
  cases s with
  | nil => rfl
  | cons c cs => rfl

theorem replaceAllF_cons_eq (pat rep : Str) (fuel : Nat) (c : Char) (rest : Str) :
    replaceAllF pat rep (fuel + 1) (c :: rest) =
      match stripPrefixQ pat (c :: rest) with
      | some rem => rep ++ replaceAllF pat rep fuel rem
      | none => c :: replaceAllF pat rep fuel rest := rfl

theorem scanFailCons (pat rep : Str) (fuel : Nat) (c : Char) (s : Str)
    (h : stripPrefixQ pat (c :: s) = none) :
    replaceAllF pat rep fuel (c :: s) = c :: replaceAllF pat rep (fuel - 1) s := by
  cases fuel with
  | zero => rw [replaceAllF_zero, replaceAllF_zero]
  | succ f =>
    rw [replaceAllF_cons_eq, h]
    simp

theorem replaceAllF_match (pat rep : Str) (m : Nat) (p0 : Char) (ps : Str)
    (hpat : pat = p0 :: ps) (s : Str) :
    replaceAllF pat rep (m + 1) (pat ++ s) = rep ++ replaceAllF pat rep m s := by
  have hself := stripPrefixQ_self_append pat s
  rw [hpat] at hself ⊢
  rw [List.cons_append, replaceAllF_cons_eq]
  rw [List.cons_append] at hself
  rw [hself]

theorem scanGapF (pat rep : Str) (hpat : ∃ ps, pat = '_' :: ps) :
    ∀ (g : Str) (fuel : Nat) (R : Str), (∀ c ∈ g, c ≠ '_') →
    replaceAllF pat rep fuel (g ++ R) = g ++ replaceAllF pat rep (fuel - g.length) R := by
  intro g
  induction g with
  | nil =>
    intro fuel R h
    simp
  | cons c g' ih =>
    intro fuel R h
    have hfail : stripPrefixQ pat (c :: (g' ++ R)) = none := by
      obtain ⟨ps, rfl⟩ := hpat
      rw [stripPrefixQ_cons, if_neg (fun he => h c (by simp) he.symm)]
    rw [List.cons_append, scanFailCons _ _ _ _ _ hfail,
      ih (fuel - 1) R (fun x hx => h x (List.mem_cons_of_mem _ hx))]
    have harith : fuel - 1 - g'.length = fuel - (c :: g').length := by
      simp only [List.length_cons]
      omega
    rw [harith, List.cons_append]

theorem scanNoUnderscore (k : Nat) (rep : Str) (fuel : Nat) (s : Str)
    (h : ∀ c ∈ s, c ≠ '_') :
    replaceAllF (tagToken k) rep fuel s = s := by
  have h2 := scanGapF (tagToken k) rep ⟨_, tagToken_cons _⟩ s fuel [] h
  rw [List.append_nil] at h2
  rw [h2]
  cases hfe : fuel - s.length with
  | zero => rw [replaceAllF_zero, List.append_nil]
  | succ m => rw [show replaceAllF (tagToken k) rep (m + 1) [] = [] from rfl, List.append_nil]

theorem scanTok (k j : Nat) (rep : Str) (fuel : Nat) (R : Str) (hkj : k ≠ j)
    (hR1 : R.head? ≠ some 'T')
    (hR2 : ∀ R2, R = '_' :: R2 → R2.head? ≠ some 'T') :
    replaceAllF (tagToken k) rep fuel (tagToken j ++ R) =
      tagToken j ++ replaceAllF (tagToken k) rep (fuel - (tagToken j).length) R := by
  obtain ⟨d0, ds, hnd⟩ : ∃ d0 ds, natDigits j = d0 :: ds := by
    cases hcase : natDigits j with
    | nil => exact absurd hcase (natDigits_ne_nil j)
    | cons a b => exact ⟨a, b, rfl⟩
  have hd0 : isDigitChar d0 = true := natDigits_digits j d0 (by rw [hnd]; simp)
  have hd0ne : d0 ≠ '_' := fun he => by
    rw [he] at hd0
    exact absurd hd0 (by decide)
  have hshape : tagToken j ++ R =
      '_' :: '_' :: 'T' :: 'A' :: 'G' :: '_' :: ((d0 :: ds) ++ '_' :: '_' :: R) := by
    simp [tagToken, hnd]
  have h0 : stripPrefixQ (tagToken k)
      ('_' :: ('_' :: 'T' :: 'A' :: 'G' :: '_' :: ((d0 :: ds) ++ '_' :: '_' :: R))) = none := by
    rw [← hshape]
    exact stripPrefixQ_toks k j hkj R
  rw [hshape]
  rw [scanFailCons _ _ _ _ _ h0]
  rw [scanFailCons _ _ _ _ _ (stripPrefixQ_uX k 'T' _ (by decide))]
  rw [scanFailCons _ _ _ _ _ (stripPrefixQ_head_ne k 'T' _ (by decide))]
  rw [scanFailCons _ _ _ _ _ (stripPrefixQ_head_ne k 'A' _ (by decide))]
  rw [scanFailCons _ _ _ _ _ (stripPrefixQ_head_ne k 'G' _ (by decide))]
  rw [scanFailCons _ _ _ '_' (d0 :: ds ++ '_' :: '_' :: R)
    (stripPrefixQ_uX k d0 _ hd0ne)]
  rw [scanGapF (tagToken k) rep ⟨_, tagToken_cons _⟩ (d0 :: ds) _ _
    (fun c hc he => by
      have hd := natDigits_digits j c (by rw [hnd]; exact hc)
      rw [he] at hd
      exact absurd hd (by decide))]
  rw [scanFailCons _ _ _ _ _ (stripPrefixQ_uuR k R hR1)]
  rw [scanFailCons _ _ _ _ _ (stripPrefixQ_uR k R hR2)]
  have harith : fuel - 1 - 1 - 1 - 1 - 1 - 1 - (d0 :: ds).length - 1 - 1 =
      fuel - (tagToken j).length := by
    rw [tagToken_length, hnd]
    simp only [List.length_cons]
    omega
  rw [harith]
  simp [tagToken, hnd]

theorem safeTail_tokensBetween (b : Nat) (gs : List Str) (gN : Str)
    (hg : ∀ g ∈ gs, '_' ∉ g ∧ g.head? ≠ some 'T')
    (hN : '_' ∉ gN ∧ gN.head? ≠ some 'T') :
    SafeTail (tokensBetween b gs gN) := by
  cases gs with
  | nil =>
    refine ⟨hN.2, fun R2 hR2 => ?_⟩
    have hgn : gN = '_' :: R2 := hR2
    have hmem : '_' ∈ gN := by
      rw [hgn]
      exact List.mem_cons_self _ _
    exact absurd hmem hN.1
  | cons g rest =>
    obtain ⟨X, hX⟩ : ∃ X, tokensBetween b (g :: rest) gN = g ++ '_' :: '_' :: X :=
      ⟨('T' :: 'A' :: 'G' :: '_' :: (natDigits b ++ ['_', '_'])) ++
          tokensBetween (b + 1) rest gN,
        by simp [tokensBetween, tagToken]⟩
    have hgg := hg g (List.mem_cons_self _ _)
    cases g with
    | nil =>
      simp only [List.nil_append] at hX
      constructor
      · rw [hX]
        simp
      · intro R2 hR2
        rw [hX] at hR2
        injection hR2 with h1 h2
        rw [← h2]
        simp
    | cons c g2 =>
      rw [List.cons_append] at hX
      have hcT : c ≠ 'T' := fun he => hgg.2 (by simp [he])
      have hcU : c ≠ '_' := fun he => hgg.1 (by rw [← he]; exact List.mem_cons_self _ _)
      constructor
      · rw [hX]
        simp [hcT]
      · intro R2 hR2
        rw [hX] at hR2
        injection hR2 with h1 h2
        exact absurd h1 hcU

theorem scanTail (k : Nat) (rep : Str) : ∀ (gs : List Str) (b fuel : Nat) (gN : Str),
    k < b → (∀ g ∈ gs, '_' ∉ g ∧ g.head? ≠ some 'T') → ('_' ∉ gN ∧ gN.head? ≠ some 'T') →
    replaceAllF (tagToken k) rep fuel (tokensBetween b gs gN) = tokensBetween b gs gN := by
  intro gs
  induction gs with
  | nil =>
    intro b fuel gN hk hg hN
    exact scanNoUnderscore k rep fuel gN (fun c hc he => hN.1 (he ▸ hc))
  | cons g rest ih =>
    intro b fuel gN hk hg hN
    have hgg := hg g (List.mem_cons_self _ _)
    rw [show tokensBetween b (g :: rest) gN =
        g ++ (tagToken b ++ tokensBetween (b + 1) rest gN) from by simp [tokensBetween]]
    rw [scanGapF (tagToken k) rep ⟨_, tagToken_cons _⟩ g fuel _
      (fun c hc he => hgg.1 (he ▸ hc))]
    have hsafe := safeTail_tokensBetween (b + 1) rest gN
      (fun g2 h2 => hg g2 (List.mem_cons_of_mem _ h2)) hN
    rw [scanTok k b rep _ _ (by omega) hsafe.1 hsafe.2]
    rw [ih (b + 1) _ gN (by omega) (fun g2 h2 => hg g2 (List.mem_cons_of_mem _ h2)) hN]

theorem mkSpan_length (inner : Str) : (mkSpan inner).length = inner.length + 2 := by
  simp [mkSpan]

theorem mem_tokensBetween : ∀ (gs : List Str) (b : Nat) (gN : Str) (c : Char),
    c ∈ tokensBetween b gs gN → (∃ g ∈ gs, c ∈ g) ∨ (∃ k, c ∈ tagToken k) ∨ c ∈ gN := by
  intro gs
  induction gs with
  | nil =>
    intro b gN c hc
    exact Or.inr (Or.inr hc)
  | cons g rest ih =>
    intro b gN c hc
    simp only [tokensBetween] at hc
    rcases List.mem_append.mp hc with h1 | h1
    · rcases List.mem_append.mp h1 with h2 | h2
      · exact Or.inl ⟨g, List.mem_cons_self _ _, h2⟩
      · exact Or.inr (Or.inl ⟨b, h2⟩)
    · rcases ih (b + 1) gN c h1 with ⟨g2, hg2, hc2⟩ | h2
      · exact Or.inl ⟨g2, List.mem_cons_of_mem _ hg2, hc2⟩
      · exact Or.inr h2

theorem mem_interleaveSpans : ∀ (ps : List (Str × Str)) (gN : Str) (c : Char),
    c ∈ interleaveSpans ps gN →
      (∃ p ∈ ps, c ∈ p.1 ∨ c ∈ mkSpan p.2) ∨ c ∈ gN := by
  intro ps
  induction ps with
  | nil =>
    intro gN c hc
    exact Or.inr hc
  | cons p rest ih =>
    intro gN c hc
    simp only [interleaveSpans] at hc
    rcases List.mem_append.mp hc with h1 | h1
    · rcases List.mem_append.mp h1 with h2 | h2
      · exact Or.inl ⟨p, List.mem_cons_self _ _, Or.inl h2⟩
      · exact Or.inl ⟨p, List.mem_cons_self _ _, Or.inr h2⟩
    · rcases ih gN c h1 with ⟨p2, hp2, hc2⟩ | h2
      · exact Or.inl ⟨p2, List.mem_cons_of_mem _ hp2, hc2⟩
      · exact Or.inr h2

theorem shieldGoF_cons_eq (ml : Str → Option Nat) (fuel : Nat) (c : Char) (rest : Str)
    (acc : List Str) :
    shieldGoF ml (fuel + 1) (c :: rest) acc =
      match ml (c :: rest) with
      | some n =>
        (tagToken acc.length ++
            (shieldGoF ml fuel ((c :: rest).drop n) (acc ++ [(c :: rest).take n])).1,
          (shieldGoF ml fuel ((c :: rest).drop n) (acc ++ [(c :: rest).take n])).2)
      | none => (c :: (shieldGoF ml fuel rest acc).1, (shieldGoF ml fuel rest acc).2) := by
  cases hm : ml (c :: rest) <;> simp [shieldGoF, hm]

theorem shieldGoF_gap (ml : Str → Option Nat) (P : Char → Bool)
    (hml : ∀ c cs n, ml (c :: cs) = some n → P c = true) :
    ∀ (g : Str) (fuel : Nat) (R : Str) (acc : List Str), (∀ c ∈ g, P c = false) →
    shieldGoF ml fuel (g ++ R) acc =
      (g ++ (shieldGoF ml (fuel - g.length) R acc).1,
        (shieldGoF ml (fuel - g.length) R acc).2) := by
  intro g
  induction g with
  | nil =>
    intro fuel R acc h
    simp
  | cons c g' ih =>
    intro fuel R acc h
    cases fuel with
    | zero =>
      cases R with
      | nil => simp [shieldGoF]
      | cons r rs => simp [shieldGoF]
    | succ f =>
      have hnone : ml (c :: (g' ++ R)) = none := by
        cases hm : ml (c :: (g' ++ R)) with
        | none => rfl
        | some n =>
          have := hml _ _ _ hm
          rw [h c (List.mem_cons_self _ _)] at this
          cases this
      rw [List.cons_append]
      rw [show shieldGoF ml (f + 1) (c :: (g' ++ R)) acc =
          (c :: (shieldGoF ml f (g' ++ R) acc).1, (shieldGoF ml f (g' ++ R) acc).2) from by
        rw [shieldGoF_cons_eq, hnone]]
      rw [ih f R acc (fun x hx => h x (List.mem_cons_of_mem _ hx))]
      simp only [List.length_cons, Nat.succ_sub_succ, List.cons_append]

theorem shieldGoF_braceSpan (inner : Str) (hin : ∀ c ∈ inner, c ≠ '}') (f : Nat) (R : Str)
    (acc : List Str) :
    shieldGoF matchBraceLen (f + 1) (mkSpan inner ++ R) acc =
      (tagToken acc.length ++ (shieldGoF matchBraceLen f R (acc ++ [mkSpan inner])).1,
        (shieldGoF matchBraceLen f R (acc ++ [mkSpan inner])).2) := by
  have hshape : mkSpan inner ++ R = '{' :: ((inner ++ ['}']) ++ R) := rfl
  have htw : ((inner ++ ['}']) ++ R).takeWhile (fun c => c ≠ '}') = inner := by
    rw [List.append_assoc, takeWhile_append_all (fun c => decide (c ≠ '}')) inner _
      (fun x hx => by simp [hin x hx])]
    simp
  have hmatch : matchBraceLen ('{' :: ((inner ++ ['}']) ++ R)) = some (inner.length + 2) := by
    simp only [matchBraceLen, htw]
    rw [if_pos (by simp)]
  have hdrop : ('{' :: ((inner ++ ['}']) ++ R)).drop (inner.length + 2) = R := by
    rw [show inner.length + 2 = (inner.length + 1) + 1 from rfl, List.drop_succ_cons]
    exact List.drop_left' (by simp)
  have htake : ('{' :: ((inner ++ ['}']) ++ R)).take (inner.length + 2) = mkSpan inner := by
    rw [show inner.length + 2 = (inner.length + 1) + 1 from rfl, List.take_succ_cons]
    rw [List.take_left' (by simp)]
    rfl
  rw [hshape, shieldGoF_cons_eq, hmatch]
  simp only [hdrop, htake]

theorem shield_brace : ∀ (ps : List (Str × Str)) (gN : Str) (acc : List Str) (fuel : Nat),
    (interleaveSpans ps gN).length ≤ fuel →
    (∀ p ∈ ps, (∀ c ∈ p.1, c ≠ '{') ∧ (∀ c ∈ p.2, c ≠ '}')) →
    (∀ c ∈ gN, c ≠ '{') →
    shieldGoF matchBraceLen fuel (interleaveSpans ps gN) acc =
      (tokensBetween acc.length (ps.map Prod.fst) gN,
        acc ++ ps.map (fun p => mkSpan p.2)) := by
  intro ps
  induction ps with
  | nil =>
    intro gN acc fuel hfuel hps hN
    have hid := shieldGoF_id matchBraceLen (fun c => decide (c = '{'))
      (fun c cs n h => by rw [matchBraceLen_trigger c cs n h]; decide) fuel gN acc
      (fun c hc => decide_eq_false (hN c hc))
    simp only [interleaveSpans, tokensBetween, List.map_nil, List.append_nil, hid]
  | cons p rest ih =>
    intro gN acc fuel hfuel hps hN
    have hp := hps p (List.mem_cons_self _ _)
    have hlen : (interleaveSpans (p :: rest) gN).length =
        p.1.length + (p.2.length + 2) + (interleaveSpans rest gN).length := by
      simp [interleaveSpans, mkSpan]
      omega
    rw [show interleaveSpans (p :: rest) gN =
        p.1 ++ (mkSpan p.2 ++ interleaveSpans rest gN) from by simp [interleaveSpans]]
    rw [shieldGoF_gap matchBraceLen (fun c => decide (c = '{'))
      (fun c cs n h => by rw [matchBraceLen_trigger c cs n h]; decide) p.1 fuel _ acc
      (fun c hc => decide_eq_false (hp.1 c hc))]
    obtain ⟨m, hm⟩ : ∃ m, fuel - p.1.length = m + 1 :=
      ⟨fuel - p.1.length - 1, by omega⟩
    rw [hm, shieldGoF_braceSpan p.2 hp.2 m _ acc]
    rw [ih gN (acc ++ [mkSpan p.2]) m (by omega)
      (fun q hq => hps q (List.mem_cons_of_mem _ hq)) hN]
    simp [tokensBetween, List.append_assoc]

theorem dropWhile_append_block (g : Str) (d : Char) (s2 : Str) (hd : isSpaceChar d = false) :
    (g ++ d :: s2).dropWhile isSpaceChar = g.dropWhile isSpaceChar ++ d :: s2 := by
  induction g with
  | nil => simp [List.dropWhile_cons, hd]
  | cons c g' ih =>
    rw [List.cons_append, List.dropWhile_cons, List.dropWhile_cons]
    by_cases hc : isSpaceChar c = true
    · rw [if_pos hc, if_pos hc, ih]
    · rw [if_neg hc, if_neg hc, List.cons_append]

theorem collapseWsF_block : ∀ (t : Str) (fuel : Nat) (r : Str),
    (∀ c ∈ t, isSpaceChar c = false) → t.length ≤ fuel →
    collapseWsF fuel (t ++ r) = t ++ collapseWsF (fuel - t.length) r := by
  intro t
  induction t with
  | nil =>
    intro fuel r h hf
    simp
  | cons c t' ih =>
    intro fuel r h hf
    cases fuel with
    | zero => simp at hf
    | succ f =>
      rw [List.cons_append]
      rw [show collapseWsF (f + 1) (c :: (t' ++ r)) = c :: collapseWsF f (t' ++ r) from by
        simp [collapseWsF, h c (List.mem_cons_self _ _)]]
      rw [ih f r (fun x hx => h x (List.mem_cons_of_mem _ hx)) (by simp at hf; omega)]
      simp only [List.length_cons, Nat.succ_sub_succ, List.cons_append]

theorem collapseWsF_gap : ∀ (fuel : Nat) (g : Str) (d : Char) (s2 : Str),
    isSpaceChar d = false → (g ++ d :: s2).length ≤ fuel →
    ∃ A f2, collapseWsF fuel (g ++ d :: s2) = A ++ collapseWsF f2 (d :: s2) ∧
      (∀ c ∈ A, c ∈ g ∨ c = ' ') ∧
      (A.head? = g.head? ∨ A.head? = some ' ') ∧
      (d :: s2).length ≤ f2 := by
  intro fuel
  induction fuel with
  | zero =>
    intro g d s2 hd hf
    exfalso
    simp only [List.length_append, List.length_cons] at hf
    omega
  | succ f ih =>
    intro g d s2 hd hf
    cases g with
    | nil =>
      refine ⟨[], f + 1, by simp, by simp, Or.inl rfl, ?_⟩
      simpa using hf
    | cons c g' =>
      by_cases hc : isSpaceChar c = true
      · have hstep : collapseWsF (f + 1) ((c :: g') ++ d :: s2) =
            ' ' :: collapseWsF f ((g' ++ d :: s2).dropWhile isSpaceChar) := by
          rw [List.cons_append]
          simp [collapseWsF, hc]
        have hdw := dropWhile_append_block g' d s2 hd
        have hlen2 : ((g'.dropWhile isSpaceChar) ++ d :: s2).length ≤ f := by
          have hsub := (List.dropWhile_sublist (l := g') (p := isSpaceChar)).length_le
          simp only [List.length_append, List.length_cons] at hf ⊢
          omega
        obtain ⟨A2, f2, hEq, hmem, hhead, hf2⟩ := ih (g'.dropWhile isSpaceChar) d s2 hd hlen2
        refine ⟨' ' :: A2, f2, ?_, ?_, Or.inr rfl, hf2⟩
        · rw [hstep, hdw, hEq, List.cons_append]
        · intro x hx
          rcases List.mem_cons.mp hx with rfl | hx2
          · exact Or.inr rfl
          · rcases hmem x hx2 with h2 | h2
            · exact Or.inl (List.mem_cons_of_mem _
                ((List.dropWhile_sublist (l := g') (p := isSpaceChar)).subset h2))
            · exact Or.inr h2
      · rw [Bool.not_eq_true] at hc
        have hstep : collapseWsF (f + 1) ((c :: g') ++ d :: s2) =
            c :: collapseWsF f (g' ++ d :: s2) := by
          rw [List.cons_append]
          simp [collapseWsF, hc]
        have hlen2 : (g' ++ d :: s2).length ≤ f := by
          simp only [List.length_append, List.length_cons] at hf ⊢
          omega
        obtain ⟨A2, f2, hEq, hmem, hhead, hf2⟩ := ih g' d s2 hd hlen2
        refine ⟨c :: A2, f2, ?_, ?_, Or.inl rfl, hf2⟩
        · rw [hstep, hEq, List.cons_append]
        · intro x hx
          rcases List.mem_cons.mp hx with rfl | hx2
          · exact Or.inl (List.mem_cons_self _ _)
          · rcases hmem x hx2 with h2 | h2
            · exact Or.inl (List.mem_cons_of_mem _ h2)
            · exact Or.inr h2

theorem collapseWsF_head (fuel : Nat) (s : Str) :
    (collapseWsF fuel s).head? = s.head? ∨ (collapseWsF fuel s).head? = some ' ' := by
  cases s with
  | nil =>
    left
    cases fuel <;> rfl
  | cons c rest =>
    cases fuel with
    | zero => left; rfl
    | succ f =>
      by_cases hc : isSpaceChar c = true
      · right
        rw [show collapseWsF (f + 1) (c :: rest) =
          ' ' :: collapseWsF f (rest.dropWhile isSpaceChar) from by simp [collapseWsF, hc]]
        rfl
      · left
        rw [Bool.not_eq_true] at hc
        rw [show collapseWsF (f + 1) (c :: rest) = c :: collapseWsF f rest from by
          simp [collapseWsF, hc]]
        rfl

theorem collapse_tokens : ∀ (gs : List Str) (fuel b : Nat) (gN : Str),
    (tokensBetween b gs gN).length ≤ fuel →
    ∃ gs2 gN2, collapseWsF fuel (tokensBetween b gs gN) = tokensBetween b gs2 gN2 ∧
      List.Forall₂ (fun g2 g => (∀ c ∈ g2, c ∈ g ∨ c = ' ') ∧
        (g2.head? = g.head? ∨ g2.head? = some ' ')) gs2 gs ∧
      (∀ c ∈ gN2, c ∈ gN ∨ c = ' ') ∧
      (gN2.head? = gN.head? ∨ gN2.head? = some ' ') := by
  intro gs
  induction gs with
  | nil =>
    intro fuel b gN hf
    exact ⟨[], collapseWsF fuel gN, rfl, List.Forall₂.nil,
      fun c hc => mem_collapseWsF fuel gN c hc, collapseWsF_head fuel gN⟩
  | cons g rest ih =>
    intro fuel b gN hf
    have htt : tokensBetween b (g :: rest) gN =
        g ++ '_' :: (('_' :: 'T' :: 'A' :: 'G' :: '_' :: (natDigits b ++ ['_', '_'])) ++
          tokensBetween (b + 1) rest gN) := by
      simp [tokensBetween, tagToken_cons]
    rw [htt] at hf ⊢
    obtain ⟨A, f2, hEq, hmem, hhead, hf2⟩ := collapseWsF_gap fuel g '_' _ (by decide) hf
    rw [hEq]
    have htok : ('_' : Char) :: (('_' :: 'T' :: 'A' :: 'G' :: '_' ::
        (natDigits b ++ ['_', '_'])) ++ tokensBetween (b + 1) rest gN) =
        tagToken b ++ tokensBetween (b + 1) rest gN := by
      simp [tagToken_cons]
    rw [htok] at hf2 ⊢
    have htlen : (tagToken b).length ≤ f2 := by
      rw [List.length_append] at hf2
      omega
    rw [collapseWsF_block (tagToken b) f2 _
      (fun c hc => (tagToken_char_ne b c hc).2.2.2.2.2) htlen]
    have hflen : (tokensBetween (b + 1) rest gN).length ≤ f2 - (tagToken b).length := by
      rw [List.length_append] at hf2
      omega
    obtain ⟨gs2, gN2, hEq2, hfa, hgN2, hgN2h⟩ := ih (f2 - (tagToken b).length) (b + 1) gN hflen
    rw [hEq2]
    refine ⟨A :: gs2, gN2, ?_, List.Forall₂.cons ⟨hmem, hhead⟩ hfa, hgN2, hgN2h⟩
    simp [tokensBetween, List.append_assoc]

theorem tokensBetween_decomp : ∀ (rest : List Str) (b : Nat) (g : Str) (gN : Str),
    tokensBetween b (g :: rest) gN = g ++ midPart b rest ++ gN := by
  intro rest
  induction rest with
  | nil =>
    intro b g gN
    simp [tokensBetween, midPart]
  | cons g2 rest' ih =>
    intro b g gN
    rw [show tokensBetween b (g :: g2 :: rest') gN =
      g ++ tagToken b ++ tokensBetween (b + 1) (g2 :: rest') gN from rfl]
    rw [ih (b + 1) g2 gN]
    simp [midPart, List.append_assoc]

theorem midPart_head (rest : List Str) (b : Nat) : ∃ M2, midPart b rest = '_' :: M2 := by
  cases rest with
  | nil => exact ⟨_, tagToken_cons b⟩
  | cons g2 rest' =>
    exact ⟨('_' :: 'T' :: 'A' :: 'G' :: '_' :: (natDigits b ++ ['_', '_'])) ++ g2 ++
        midPart (b + 1) rest',
      by simp [midPart, tagToken_cons]⟩

theorem midPart_rev : ∀ (rest : List Str) (b : Nat),
    ∃ M3, (midPart b rest).reverse = '_' :: M3 := by
  intro rest
  induction rest with
  | nil =>
    intro b
    have h1 : midPart b [] = ('_' :: '_' :: 'T' :: 'A' :: 'G' :: '_' :: natDigits b) ++
        ['_', '_'] := by
      simp [midPart, tagToken_cons]
    refine ⟨'_' :: ('_' :: '_' :: 'T' :: 'A' :: 'G' :: '_' :: natDigits b).reverse, ?_⟩
    rw [h1, List.reverse_append]
    simp
  | cons g2 rest' ih =>
    intro b
    obtain ⟨M3, hM3⟩ := ih (b + 1)
    refine ⟨M3 ++ (tagToken b ++ g2).reverse, ?_⟩
    rw [show midPart b (g2 :: rest') = tagToken b ++ g2 ++ midPart (b + 1) rest' from rfl]
    rw [List.reverse_append, hM3, List.cons_append]

theorem stripWs_mid (g M gN : Str) (d e : Char) (M2 M3 : Str)
    (hM1 : M = d :: M2) (hMr : M.reverse = e :: M3)
    (hd : isSpaceChar d = false) (he : isSpaceChar e = false) :
    stripWs (g ++ M ++ gN) = g.dropWhile isSpaceChar ++ M ++ rstripEnd gN := by
  have h1 : (g ++ M ++ gN).dropWhile isSpaceChar = g.dropWhile isSpaceChar ++ M ++ gN := by
    rw [List.append_assoc, hM1, List.cons_append]
    rw [dropWhile_append_block g d (M2 ++ gN) hd]
    rw [← List.cons_append, ← List.append_assoc]
  have h3 : (gN.reverse ++ (M.reverse ++ (g.dropWhile isSpaceChar).reverse)).dropWhile
      isSpaceChar = gN.reverse.dropWhile isSpaceChar ++
        (M.reverse ++ (g.dropWhile isSpaceChar).reverse) := by
    rw [hMr, List.cons_append]
    rw [dropWhile_append_block gN.reverse e (M3 ++ (g.dropWhile isSpaceChar).reverse) he]
  simp only [stripWs]
  rw [h1, List.reverse_append, List.reverse_append, h3]
  rw [List.reverse_append, List.reverse_append, List.reverse_reverse, List.reverse_reverse]
  simp [rstripEnd, List.append_assoc]

theorem strip_tokens (b : Nat) (g : Str) (rest : List Str) (gN : Str) :
    stripWs (tokensBetween b (g :: rest) gN) =
      tokensBetween b ((g.dropWhile isSpaceChar) :: rest) (rstripEnd gN) := by
  obtain ⟨M2, hM1⟩ := midPart_head rest b
  obtain ⟨M3, hMr⟩ := midPart_rev rest b
  rw [tokensBetween_decomp rest b g gN, tokensBetween_decomp rest b _ (rstripEnd gN)]
  exact stripWs_mid g (midPart b rest) gN '_' '_' M2 M3 hM1 hMr (by decide) (by decide)

theorem plainGap_facts (c : Char) (h : plainGapChar c = true) :
    c ≠ '<' ∧ c ≠ '{' ∧ c ≠ '}' ∧ c ≠ '\\' ∧ c ≠ '_' ∧ c ≠ '[' ∧ c ≠ ']' ∧
      c ≠ '(' ∧ c ≠ ')' := by
  simp only [plainGapChar, Bool.not_eq_true', Bool.or_eq_false_iff,
    decide_eq_false_iff_not] at h
  exact ⟨h.1.1.1.1.1.1.1.1, h.1.1.1.1.1.1.1.2, h.1.1.1.1.1.1.2, h.1.1.1.1.1.2,
    h.1.1.1.1.2, h.1.1.1.2, h.1.1.2, h.1.2, h.2⟩

theorem goodInner_facts (c : Char) (h : goodInnerChar c = true) :
    c ≠ '}' ∧ c ≠ '<' ∧ c ≠ '_' := by
  simp only [goodInnerChar, Bool.not_eq_true', Bool.or_eq_false_iff,
    decide_eq_false_iff_not] at h
  exact ⟨h.1.1, h.1.2, h.2⟩

theorem mem_rstripEnd (s : Str) (c : Char) (h : c ∈ rstripEnd s) : c ∈ s := by
  simp only [rstripEnd, List.mem_reverse] at h
  have h2 := (List.dropWhile_sublist (l := s.reverse) (p := isSpaceChar)).subset h
  simpa using h2

theorem rstripEnd_head (s : Str) (c : Char) (h : (rstripEnd s).head? = some c) :
    s.head? = some c := by
  have hpre : rstripEnd s <+: s := by
    have h1 := List.reverse_prefix.mpr
      (List.dropWhile_suffix (l := s.reverse) (p := isSpaceChar))
    rw [List.reverse_reverse] at h1
    exact h1
  obtain ⟨t, ht⟩ := hpre
  cases hre : rstripEnd s with
  | nil =>
    rw [hre] at h
    cases h
  | cons c0 rest =>
    rw [hre] at h ht
    rw [← ht]
    simp only [List.head?_cons, Option.some.injEq] at h
    rw [List.cons_append]
    simp [h]

theorem T_mem_tokensBetween (b : Nat) (g : Str) (rest : List Str) (gN : Str) :
    'T' ∈ tokensBetween b (g :: rest) gN := by
  rw [show tokensBetween b (g :: rest) gN =
    g ++ tagToken b ++ tokensBetween (b + 1) rest gN from rfl]
  rw [tagToken_cons]
  simp

theorem forall2_mem_left {α β : Type} {R : α → β → Prop} : ∀ {l1 : List α} {l2 : List β},
    List.Forall₂ R l1 l2 → ∀ a ∈ l1, ∃ b ∈ l2, R a b := by
  intro l1
  induction l1 with
  | nil =>
    intro l2 h a ha
    cases ha
  | cons x l1i ih =>
    intro l2 h a ha
    cases h with
    | cons hR hrest =>
      rcases List.mem_cons.mp ha with rfl | ha2
      · exact ⟨_, List.mem_cons_self _ _, hR⟩
      · obtain ⟨b, hb, hRb⟩ := ih hrest a ha2
        exact ⟨b, List.mem_cons_of_mem _ hb, hRb⟩

theorem forall2_zip_spans : ∀ (gs : List Str) (ps : List (Str × Str)),
    List.Forall₂ (fun g2 g => ∀ c ∈ g2, c ∈ g ∨ c = ' ') gs (ps.map Prod.fst) →
    List.Forall₂ (fun q p => ∀ c ∈ q.1, c ∈ p.1 ∨ c = ' ')
      (List.zip gs (ps.map (fun p => mkSpan p.2))) ps := by
  intro gs
  induction gs with
  | nil =>
    intro ps h
    cases ps with
    | nil => exact List.Forall₂.nil
    | cons p ps2 => cases h
  | cons g gs2 ih =>
    intro ps h
    cases ps with
    | nil => cases h
    | cons p ps2 =>
      rw [List.map_cons] at h
      cases h with
      | cons hR hrest =>
        simp only [List.map_cons, List.zip_cons_cons]
        exact List.Forall₂.cons hR (ih ps2 hrest)

theorem interleaveF_append_pair (done : List (Str × Str)) (p : Str × Str) (t : Str) :
    interleaveF (done ++ [p]) t = interleaveF done (p.1 ++ p.2 ++ t) := by
  induction done with
  | nil => simp [interleaveF, List.append_assoc]
  | cons q rest ih => simp [interleaveF, ih]

theorem interleaveF_flat (done : List (Str × Str))
    (h : ∀ p ∈ done, '_' ∉ p.1 ∧ '_' ∉ p.2) :
    ∃ u : Str, (∀ t, interleaveF done t = u ++ t) ∧ '_' ∉ u := by
  induction done with
  | nil => exact ⟨[], fun t => rfl, by simp⟩
  | cons p rest ih =>
    obtain ⟨u, hu, huU⟩ := ih (fun q hq => h q (List.mem_cons_of_mem _ hq))
    have hp := h p (List.mem_cons_self _ _)
    refine ⟨p.1 ++ p.2 ++ u, fun t => ?_, ?_⟩
    · rw [show interleaveF (p :: rest) t = p.1 ++ p.2 ++ interleaveF rest t from rfl, hu t]
      simp [List.append_assoc]
    · intro hmem
      rcases List.mem_append.mp hmem with h1 | h1
      · rcases List.mem_append.mp h1 with h2 | h2
        · exact hp.1 h2
        · exact hp.2 h2
      · exact huU h1

theorem removeInlineBrackets_id (s : Str) (cfg : SDHConfig)
    (h1 : ¬ List.Sublist ['[', ']'] s) (h2 : ¬ List.Sublist ['(', ')'] s) :
    removeInlineBrackets s cfg = s := by
  simp only [removeInlineBrackets]
  by_cases hsq : (cfg.remove_between_square && !cfg.between_only_if_separate_line) = true
  · rw [if_pos hsq, removeDelimited_id_of_noMatch _ _ _ h1]
    by_cases hpr : (cfg.remove_between_paren && !cfg.between_only_if_separate_line) = true
    · rw [if_pos hpr, removeDelimited_id_of_noMatch _ _ _ h2]
    · rw [if_neg hpr]
  · rw [if_neg hsq]
    by_cases hpr : (cfg.remove_between_paren && !cfg.between_only_if_separate_line) = true
    · rw [if_pos hpr, removeDelimited_id_of_noMatch _ _ _ h2]
    · rw [if_neg hpr]

theorem restore_step (k : Nat) (done : List (Str × Str)) (g : Str) (gs : List Str)
    (gN span : Str)
    (hdone : ∀ p ∈ done, '_' ∉ p.1 ∧ '_' ∉ p.2)
    (hgU : '_' ∉ g)
    (hgs : ∀ g2 ∈ gs, '_' ∉ g2 ∧ g2.head? ≠ some 'T')
    (hN : '_' ∉ gN ∧ gN.head? ≠ some 'T') :
    replaceAll (interleaveF done (tokensBetween k (g :: gs) gN)) (tagToken k) span =
      interleaveF (done ++ [(g, span)]) (tokensBetween (k + 1) gs gN) := by
  obtain ⟨u, hu, huU⟩ := interleaveF_flat done hdone
  rw [hu, interleaveF_append_pair, hu]
  simp only [replaceAll]
  rw [if_neg (by simp [tagToken_cons])]
  rw [show tokensBetween k (g :: gs) gN =
      g ++ (tagToken k ++ tokensBetween (k + 1) gs gN) from by simp [tokensBetween]]
  rw [show u ++ (g ++ (tagToken k ++ tokensBetween (k + 1) gs gN)) =
      (u ++ g) ++ (tagToken k ++ tokensBetween (k + 1) gs gN) from by
    simp [List.append_assoc]]
  rw [scanGapF (tagToken k) span ⟨_, tagToken_cons _⟩ (u ++ g) _ _ (fun c hc he => by
    rcases List.mem_append.mp hc with h1 | h1
    · exact huU (he ▸ h1)
    · exact hgU (he ▸ h1))]
  obtain ⟨m, hm⟩ : ∃ m, ((u ++ g) ++ (tagToken k ++ tokensBetween (k + 1) gs gN)).length -
      (u ++ g).length = m + 1 := by
    refine ⟨(tagToken k).length + (tokensBetween (k + 1) gs gN).length - 1, ?_⟩
    have htl : 0 < (tagToken k).length := by
      rw [tagToken_length]
      omega
    simp only [List.length_append]
    omega
  rw [hm]
  rw [replaceAllF_match (tagToken k) span m '_' _ (tagToken_cons k) _]
  rw [scanTail k span gs (k + 1) m gN (by omega) hgs hN]
  simp [List.append_assoc]

theorem restore_loop : ∀ (rem : List Str) (k : Nat) (done : List (Str × Str))
    (gs : List Str) (gN : Str),
    gs.length = rem.length →
    (∀ p ∈ done, '_' ∉ p.1 ∧ '_' ∉ p.2) →
    (∀ g ∈ gs, '_' ∉ g) →
    (∀ g ∈ gs.tail, g.head? ≠ some 'T') →
    (∀ sp ∈ rem, '_' ∉ sp) →
    ('_' ∉ gN ∧ gN.head? ≠ some 'T') →
    List.foldl (fun l p => replaceAll l (tagToken p.1) p.2)
        (interleaveF done (tokensBetween k gs gN)) (List.enumFrom k rem) =
      interleaveF (done ++ List.zip gs rem) gN := by
  intro rem
  induction rem with
  | nil =>
    intro k done gs gN hlen hdone hgs hheads hrem hN
    have hgsnil : gs = [] := List.eq_nil_of_length_eq_zero (by simpa using hlen)
    subst hgsnil
    simp [List.enumFrom, tokensBetween]
  | cons sp rem2 ih =>
    intro k done gs gN hlen hdone hgs hheads hrem hN
    cases gs with
    | nil => simp at hlen
    | cons g gs2 =>
      rw [show List.enumFrom k (sp :: rem2) = (k, sp) :: List.enumFrom (k + 1) rem2 from rfl]
      rw [List.foldl_cons]
      show List.foldl (fun l p => replaceAll l (tagToken p.1) p.2)
          (replaceAll (interleaveF done (tokensBetween k (g :: gs2) gN)) (tagToken k) sp)
          (List.enumFrom (k + 1) rem2) =
        interleaveF (done ++ List.zip (g :: gs2) (sp :: rem2)) gN
      rw [restore_step k done g gs2 gN sp hdone (hgs g (List.mem_cons_self _ _))
        (fun g2 h2 => ⟨hgs g2 (List.mem_cons_of_mem _ h2), hheads g2 h2⟩) hN]
      rw [ih (k + 1) (done ++ [(g, sp)]) gs2 gN (by simpa using hlen)
        (fun p hp => by
          rcases List.mem_append.mp hp with h1 | h1
          · exact hdone p h1
          · rw [List.mem_singleton] at h1
            subst h1
            exact ⟨hgs g (List.mem_cons_self _ _), hrem sp (List.mem_cons_self _ _)⟩)
        (fun g2 h2 => hgs g2 (List.mem_cons_of_mem _ h2))
        (fun g2 h2 => hheads g2 (List.mem_of_mem_tail h2))
        (fun sp2 h2 => hrem sp2 (List.mem_cons_of_mem _ h2)) hN]
      rw [List.zip_cons_cons]
      simp [List.append_assoc]

/-- C1 (amended): restricted shield round-trip.  For a line assembled from
plain gaps (no markup, bracket, underscore or escape characters; text after
a span not starting with the letter T) and well-formed brace override spans
(interiors without a closing brace, an angle bracket or an underscore), with
the standalone-bracket and speaker rules disabled, `clean_line` keeps the
line and every shielded span reappears verbatim and in its original order;
only the surrounding plain text is affected (whitespace-normalized).  The
counterexample shows the unrestricted claim fails: a span inside a
parenthetical is deleted, user text shaped like a sentinel is rewritten,
and nested spans leak sentinels. -/
theorem C1_round_trip (ps : List (Str × Str)) (gN : Str) (cfg : SDHConfig)
    (hps : ps ≠ [])
    (hgap : ∀ p ∈ ps, ∀ c ∈ p.1, plainGapChar c = true)
    (hinner : ∀ p ∈ ps, ∀ c ∈ p.2, goodInnerChar c = true)
    (hNgap : ∀ c ∈ gN, plainGapChar c = true)
    (hheads : ∀ p ∈ ps.tail, p.1.head? ≠ some 'T')
    (hNh : gN.head? ≠ some 'T')
    (hsep : cfg.between_only_if_separate_line = false)
    (hsp : cfg.remove_text_before_colon = false) :
    ∃ qs gNout,
      clean_line (interleaveSpans ps gN) cfg = some (interleaveF qs gNout) ∧
      qs.map Prod.snd = ps.map (fun p => mkSpan p.2) ∧
      List.Forall₂ (fun q p => ∀ c ∈ q.1, c ∈ p.1 ∨ c = ' ') qs ps ∧
      (∀ c ∈ gNout, c ∈ gN ∨ c = ' ') := by
  obtain ⟨p0, ps', rfl⟩ : ∃ p0 ps', ps = p0 :: ps' := by
    cases ps with
    | nil => exact absurd rfl hps
    | cons a b => exact ⟨a, b, rfl⟩
  have hline_lt : ∀ c ∈ interleaveSpans (p0 :: ps') gN, c ≠ '<' := by
    intro c hc
    rcases mem_interleaveSpans (p0 :: ps') gN c hc with ⟨p, hp, hcp | hcp⟩ | hcn
    · exact (plainGap_facts c (hgap p hp c hcp)).1
    · simp only [mkSpan, List.mem_cons, List.mem_append, List.mem_singleton,
        List.not_mem_nil, or_false] at hcp
      rcases hcp with rfl | hcp2 | rfl
      · decide
      · exact (goodInner_facts c (hinner p hp c hcp2)).2.1
      · decide
    · exact (plainGap_facts c (hNgap c hcn)).1
  have hdrop : shouldDropLineForBrackets (interleaveSpans (p0 :: ps') gN) cfg = false := by
    simp [shouldDropLineForBrackets, hsep]
  have hS1 : shieldGo matchBrLen (interleaveSpans (p0 :: ps') gN) [] =
      (interleaveSpans (p0 :: ps') gN, []) :=
    shieldGoF_id matchBrLen (fun c => decide (c = '<'))
      (fun c cs n h => by rw [matchBrLen_trigger c cs n h]; decide)
      (interleaveSpans (p0 :: ps') gN).length _ _
      (fun c hc => decide_eq_false (hline_lt c hc))
  have hS2 : shieldGo matchHtmlLen (interleaveSpans (p0 :: ps') gN) [] =
      (interleaveSpans (p0 :: ps') gN, []) :=
    shieldGoF_id matchHtmlLen (fun c => decide (c = '<'))
      (fun c cs n h => by rw [matchHtmlLen_trigger c cs n h]; decide)
      (interleaveSpans (p0 :: ps') gN).length _ _
      (fun c hc => decide_eq_false (hline_lt c hc))
  have hS3 : shieldGo matchBraceLen (interleaveSpans (p0 :: ps') gN) [] =
      (tokensBetween 0 ((p0 :: ps').map Prod.fst) gN,
        (p0 :: ps').map (fun p => mkSpan p.2)) := by
    have h := shield_brace (p0 :: ps') gN [] (interleaveSpans (p0 :: ps') gN).length
      (le_refl _)
      (fun p hp => ⟨fun c hc => (plainGap_facts c (hgap p hp c hc)).2.1,
        fun c hc => (goodInner_facts c (hinner p hp c hc)).1⟩)
      (fun c hc => (plainGap_facts c (hNgap c hc)).2.1)
    simpa [shieldGo] using h
  have hSb : ∀ c ∈ tokensBetween 0 ((p0 :: ps').map Prod.fst) gN,
      c ≠ '\\' ∧ c ≠ '[' ∧ c ≠ '(' := by
    intro c hc
    rcases mem_tokensBetween ((p0 :: ps').map Prod.fst) 0 gN c hc with
      ⟨g, hg, hcg⟩ | ⟨k, hck⟩ | hcn
    · obtain ⟨p, hp, rfl⟩ := List.mem_map.mp hg
      have hfacts := plainGap_facts c (hgap p hp c hcg)
      exact ⟨hfacts.2.2.2.1, hfacts.2.2.2.2.2.1, hfacts.2.2.2.2.2.2.2.1⟩
    · have hfacts := tagToken_char_ne k c hck
      exact ⟨hfacts.2.2.1, hfacts.2.2.2.1, hfacts.2.2.2.2.1⟩
    · have hfacts := plainGap_facts c (hNgap c hcn)
      exact ⟨hfacts.2.2.2.1, hfacts.2.2.2.2.2.1, hfacts.2.2.2.2.2.2.2.1⟩
  have hS4 : shieldGo matchNlLen (tokensBetween 0 ((p0 :: ps').map Prod.fst) gN)
      ((p0 :: ps').map (fun p => mkSpan p.2)) =
      (tokensBetween 0 ((p0 :: ps').map Prod.fst) gN,
        (p0 :: ps').map (fun p => mkSpan p.2)) :=
    shieldGoF_id matchNlLen (fun c => decide (c = '\\'))
      (fun c cs n h => by rw [matchNlLen_trigger c cs n h]; decide) _ _ _
      (fun c hc => decide_eq_false ((hSb c hc).1))
  have hS5 : removeInlineBrackets (tokensBetween 0 ((p0 :: ps').map Prod.fst) gN) cfg =
      tokensBetween 0 ((p0 :: ps').map Prod.fst) gN :=
    removeInlineBrackets_id _ cfg
      (fun hsub => (hSb _ (hsub.subset (List.mem_cons_self _ _))).2.1 rfl)
      (fun hsub => (hSb _ (hsub.subset (List.mem_cons_self _ _))).2.2 rfl)
  have hS6 : stripSpeaker (tokensBetween 0 ((p0 :: ps').map Prod.fst) gN) cfg =
      tokensBetween 0 ((p0 :: ps').map Prod.fst) gN := by
    simp [stripSpeaker, hsp]
  obtain ⟨gs2, gN2, hC, hFa, hgN2, hgN2h⟩ :=
    collapse_tokens ((p0 :: ps').map Prod.fst)
      (tokensBetween 0 ((p0 :: ps').map Prod.fst) gN).length 0 gN (le_refl _)
  cases gs2 with
  | nil =>
    rw [List.map_cons] at hFa
    cases hFa
  | cons g2h gs2t =>
    rw [List.map_cons] at hFa
    cases hFa with
    | cons hPh hPt =>
      have hS7 : stripWs (collapseWs (tokensBetween 0 ((p0 :: ps').map Prod.fst) gN)) =
          tokensBetween 0 ((g2h.dropWhile isSpaceChar) :: gs2t) (rstripEnd gN2) := by
        rw [show collapseWs (tokensBetween 0 ((p0 :: ps').map Prod.fst) gN) =
            collapseWsF (tokensBetween 0 ((p0 :: ps').map Prod.fst) gN).length
              (tokensBetween 0 ((p0 :: ps').map Prod.fst) gN) from rfl]
        rw [hC, strip_tokens 0 g2h gs2t gN2]
      have hmus : onlyMusic (tokensBetween 0 ((g2h.dropWhile isSpaceChar) :: gs2t)
          (rstripEnd gN2)) = false := by
        have hTmem := T_mem_tokensBetween 0 (g2h.dropWhile isSpaceChar) gs2t (rstripEnd gN2)
        have hstr : stripWs (tokensBetween 0 ((g2h.dropWhile isSpaceChar) :: gs2t)
            (rstripEnd gN2)) = tokensBetween 0 ((g2h.dropWhile isSpaceChar) :: gs2t)
            (rstripEnd gN2) := by
          rw [← hS7]
          exact stripWs_idem _
        simp only [onlyMusic, hstr]
        have hall : (tokensBetween 0 ((g2h.dropWhile isSpaceChar) :: gs2t)
            (rstripEnd gN2)).all (fun c => MUSIC_SYMBOLS.contains c) = false :=
          List.all_eq_false.mpr ⟨'T', hTmem, by decide⟩
        rw [hall, Bool.and_false]
      have hg2hU : '_' ∉ g2h.dropWhile isSpaceChar := by
        intro hmem
        have h2 := (List.dropWhile_sublist (l := g2h) (p := isSpaceChar)).subset hmem
        rcases hPh.1 '_' h2 with h3 | h3
        · exact (plainGap_facts '_'
            (hgap p0 (List.mem_cons_self _ _) '_' h3)).2.2.2.2.1 rfl
        · exact absurd h3 (by decide)
      have hgs2t : ∀ g2 ∈ gs2t, '_' ∉ g2 ∧ g2.head? ≠ some 'T' := by
        intro g2 h2
        obtain ⟨gorig, hgo, hR⟩ := forall2_mem_left hPt g2 h2
        obtain ⟨q, hq, rfl⟩ := List.mem_map.mp hgo
        constructor
        · intro hmem
          rcases hR.1 '_' hmem with h3 | h3
          · exact (plainGap_facts '_'
              (hgap q (List.mem_cons_of_mem _ hq) '_' h3)).2.2.2.2.1 rfl
          · exact absurd h3 (by decide)
        · intro hh
          rcases hR.2 with h4 | h4
          · rw [hh] at h4
            exact hheads q hq h4.symm
          · rw [hh] at h4
            exact absurd h4 (by decide)
      have hNU : '_' ∉ rstripEnd gN2 ∧ (rstripEnd gN2).head? ≠ some 'T' := by
        constructor
        · intro hmem
          rcases hgN2 '_' (mem_rstripEnd gN2 '_' hmem) with h3 | h3
          · exact (plainGap_facts '_' (hNgap '_' h3)).2.2.2.2.1 rfl
          · exact absurd h3 (by decide)
        · intro hh
          have h2 := rstripEnd_head gN2 'T' hh
          rcases hgN2h with h3 | h3
          · rw [h2] at h3
            exact hNh h3.symm
          · rw [h2] at h3
            exact absurd h3 (by decide)
      have hspans : ∀ sp ∈ (p0 :: ps').map (fun p => mkSpan p.2), '_' ∉ sp := by
        intro sp hsp2
        obtain ⟨q, hq, rfl⟩ := List.mem_map.mp hsp2
        intro hmem
        simp only [mkSpan, List.mem_cons, List.mem_append, List.mem_singleton,
          List.not_mem_nil, or_false] at hmem
        rcases hmem with h3 | h3 | h3
        · exact absurd h3 (by decide)
        · exact (goodInner_facts '_' (hinner q hq '_' h3)).2.2 rfl
        · exact absurd h3 (by decide)
      have hlen3 : ((g2h.dropWhile isSpaceChar) :: gs2t).length =
          ((p0 :: ps').map (fun p => mkSpan p.2)).length := by
        have h1 := List.Forall₂.length_eq hPt
        simp only [List.length_map] at h1
        simp [h1]
      have hrest : restoreTags (tokensBetween 0 ((g2h.dropWhile isSpaceChar) :: gs2t)
          (rstripEnd gN2)) ((p0 :: ps').map (fun p => mkSpan p.2)) =
          interleaveF (List.zip ((g2h.dropWhile isSpaceChar) :: gs2t)
            ((p0 :: ps').map (fun p => mkSpan p.2))) (rstripEnd gN2) := by
        have hl := restore_loop ((p0 :: ps').map (fun p => mkSpan p.2)) 0 []
          ((g2h.dropWhile isSpaceChar) :: gs2t) (rstripEnd gN2) hlen3
          (fun p hp => absurd hp (List.not_mem_nil p))
          (fun g2 h2 => by
            rcases List.mem_cons.mp h2 with rfl | h3
            · exact hg2hU
            · exact (hgs2t g2 h3).1)
          (fun g2 h2 => (hgs2t g2 h2).2)
          hspans hNU
        simp only [List.nil_append] at hl
        simp only [restoreTags]
        rw [show List.enum ((p0 :: ps').map (fun p => mkSpan p.2)) =
            List.enumFrom 0 ((p0 :: ps').map (fun p => mkSpan p.2)) from rfl]
        exact hl
      refine ⟨List.zip ((g2h.dropWhile isSpaceChar) :: gs2t)
          ((p0 :: ps').map (fun p => mkSpan p.2)), rstripEnd gN2, ?_, ?_, ?_, ?_⟩
      · simp only [clean_line, hdrop, Bool.false_eq_true, if_false, hS1, hS2,
          hS3, hS4, hS5, hS6, hS7, hmus, Bool.and_false, hrest]
      · exact List.map_snd_zip _ _ (le_of_eq hlen3.symm)
      · apply forall2_zip_spans
        rw [List.map_cons]
        refine List.Forall₂.cons ?_ (List.Forall₂.imp (fun a b hab => hab.1) hPt)
        intro c hc
        exact hPh.1 c ((List.dropWhile_sublist (l := g2h) (p := isSpaceChar)).subset hc)
      · intro c hc
        exact hgN2 c (mem_rstripEnd gN2 c hc)

theorem C1_round_trip_witness :
    ∃ qs gNout,
      clean_line (interleaveSpans [(litStr "x ", litStr "\\an8"), (litStr " y", litStr "b 1")]
          (litStr " z")) ⟨true, true, false, false, false, true⟩ =
        some (interleaveF qs gNout) ∧
      qs.map Prod.snd = [(litStr "x ", litStr "\\an8"), (litStr " y", litStr "b 1")].map
        (fun p => mkSpan p.2) ∧
      List.Forall₂ (fun q p => ∀ c ∈ q.1, c ∈ p.1 ∨ c = ' ') qs
        [(litStr "x ", litStr "\\an8"), (litStr " y", litStr "b 1")] ∧
      (∀ c ∈ gNout, c ∈ litStr " z" ∨ c = ' ') :=
  C1_round_trip [(litStr "x ", litStr "\\an8"), (litStr " y", litStr "b 1")] (litStr " z")
    ⟨true, true, false, false, false, true⟩ (by decide) (by decide) (by decide) (by decide)
    (by decide) (by decide) rfl rfl

end SRT
